import Mathlib

/-!
Verification of the `ts-jsonbinding` library (`src/jsonbinding.ts`): a shallow
embedding of the JSON value model, the `JsonBinding` combinators, the
`JsonParseException` error-context mechanism, and the lazy binding cache,
together with proofs of the specified properties.

Modelling conventions:
* JavaScript exceptions are modelled with `Except`.  A thrown
  `JsonParseException` becomes `JErr.parse`; any other thrown value
  (`new Error(...)`, a `TypeError`, ...) becomes `JErr.fault`.
* JSON numbers are modelled as integers (no claim depends on float
  behaviour).
* Host (JavaScript) runtime values are modelled by the universe `Value`.
  Values that are plain JSON data (strings, numbers, booleans, nulls as
  produced by the identity bindings) are embedded via `Value.vjson`;
  structured host values (records, tuples/arrays of decoded values, `Map`,
  `Set`, `Date`, `bigint`, `undefined`, tagged-union records) have their own
  constructors.  The unchecked TypeScript cast in `identityJsonBinding`'s
  `toJson` is modelled as the partial projection out of `Value.vjson`,
  faulting on values outside the JSON fragment.
-/

namespace TsJson

/-- The JSON value model from `jsonbinding.ts`:
`Json = string | number | boolean | null | Json[] | {[key: string]: Json}`. -/
inductive Json : Type where
  | str : String → Json
  | num : Int → Json
  | bool : Bool → Json
  | null : Json
  | arr : List Json → Json
  | obj : List (String × Json) → Json

/-- The universe of host (JavaScript) runtime values handled by the bindings. -/
inductive Value : Type where
  /-- a plain JSON datum living unchanged in the host (identity bindings) -/
  | vjson : Json → Value
  /-- the JavaScript `undefined` value -/
  | vundef : Value
  /-- the JavaScript `null` value as used by the `orNull` combinator -/
  | vnull : Value
  /-- a JavaScript `bigint` -/
  | vbigint : Int → Value
  /-- a JavaScript `Date`, identified by its epoch-milliseconds -/
  | vdate : Int → Value
  /-- a decoded JavaScript array (also the 2-tuples of the `pair` binding) -/
  | varr : List Value → Value
  /-- a decoded JavaScript record / string map, in insertion order -/
  | vobj : List (String × Value) → Value
  /-- a JavaScript `Map`, entries in insertion order -/
  | vmap : List (Value × Value) → Value
  /-- a JavaScript `Set`, elements in insertion order -/
  | vset : List Value → Value
  /-- a discriminated-union record `{kind, value}` -/
  | vunion : String → Value → Value

/-- Discriminator for the JSON null value (`jv === null`). -/
def Json.isNull : Json → Bool
  | .null => true
  | _ => false

/-- Discriminator for the host `null` sentinel (`v === null`). -/
def Value.isVnull : Value → Bool
  | .vnull => true
  | _ => false

/-- Discriminator for the host `undefined` sentinel (`v === undefined`). -/
def Value.isVundef : Value → Bool
  | .vundef => true
  | _ => false

/-! ## The error mechanism (`JsonParseException` and other thrown values) -/

/-- The data of a `JsonParseException`: the cause `text` and the mutable
`context` list of path segments, to which segments are appended (pushed)
innermost-first as the failure unwinds. -/
structure ParseErr : Type where
  text : String
  context : List String
deriving DecidableEq, Repr

/-- A thrown JavaScript value: either a structured `JsonParseException`
(`parse`) or any other thrown error such as `new Error(...)` (`fault`). -/
inductive JErr : Type where
  | parse : ParseErr → JErr
  | fault : String → JErr
deriving DecidableEq, Repr

/-- `isJsonParseException` from the source: recognises the structured
decode-error type. -/
def isJsonParseException : JErr → Bool
  | .parse _ => true
  | .fault _ => false

/-- `JsonParseException.pushField`, as used at every call site: the source
guards each push with `isJsonParseException` and rethrows other errors
unmodified, so a `fault` passes through unchanged. -/
def pushField (fieldName : String) : JErr → JErr
  | .parse e => .parse ⟨e.text, e.context ++ [fieldName]⟩
  | .fault m => .fault m

/-- `JsonParseException.pushIndex`, with the same guard convention as
`pushField`: the pushed segment is the index rendered in brackets. -/
def pushIndex (index : Nat) : JErr → JErr
  | .parse e => .parse ⟨e.text, e.context ++ ["[" ++ toString index ++ "]"]⟩
  | .fault m => .fault m

/-- `JsonParseException.createContextString`: copy the context, push the root
marker, reverse, and join with the path separator. -/
def createContextString (context : List String) : String :=
  String.intercalate "." ((context ++ ["$"]).reverse)

/-- The `message` getter of `JsonParseException`. -/
def ParseErr.message (e : ParseErr) : String :=
  e.text ++ " at " ++ createContextString e.context

/-! ## The `JsonBinding` contract and helpers -/

/-- `JsonBinding<T>`, over the universal host-value type: `toJson` and
`fromJson`, each able to throw (modelled with `Except`). -/
structure JB : Type where
  toJson : Value → Except JErr Json
  fromJson : Json → Except JErr Value

/-- `asJsonObject`: the value's key/value list if it is a JSON object
(`instanceof Object` and not an `Array`), else `undefined`. -/
def asJsonObject : Json → Option (List (String × Json))
  | .obj kvs => some kvs
  | _ => none

/-- `asJsonArray`: the value's element list if it is a JSON array. -/
def asJsonArray : Json → Option (List Json)
  | .arr js => some js
  | _ => none

/-- `identityJsonBinding`: `fromJson` checks the predicate and returns the
JSON value itself (embedded in the host universe); `toJson` is the source's
unchecked cast, modelled as the projection out of the JSON fragment. -/
def identityJsonBinding (expected : String) (predicate : Json → Bool) : JB where
  toJson v :=
    match v with
    | .vjson j => .ok j
    | _ => .error (.fault "invalid cast to Json")
  fromJson j :=
    if predicate j then .ok (.vjson j)
    else .error (.parse ⟨"expected " ++ expected, []⟩)

/-- `string()`: accepts exactly JSON strings. -/
def string : JB :=
  identityJsonBinding "a string" fun j =>
    match j with
    | .str _ => true
    | _ => false

/-- `number()`: accepts exactly JSON numbers. -/
def number : JB :=
  identityJsonBinding "a number" fun j =>
    match j with
    | .num _ => true
    | _ => false

/-- `boolean()`: accepts exactly JSON booleans. -/
def boolean : JB :=
  identityJsonBinding "a boolean" fun j =>
    match j with
    | .bool _ => true
    | _ => false

/-- `nullv()`: accepts exactly JSON null. -/
def nullv : JB :=
  identityJsonBinding "a null" fun j =>
    match j with
    | .null => true
    | _ => false

/-- `json()`: accepts any JSON value. -/
def json : JB :=
  identityJsonBinding "a json value" fun _ => true

/-- `mapped(jbb, fnAB, fnBA)`: encode through `fnAB` then the inner binding;
decode through the inner binding then `fnBA`.  Both conversion functions may
throw, hence `Except`. -/
def mapped (jbb : JB) (fnAB : Value → Except JErr Value)
    (fnBA : Value → Except JErr Value) : JB where
  toJson v := fnAB v >>= jbb.toJson
  fromJson j := jbb.fromJson j >>= fnBA

/-- `date()`: a `Date` serialised as its epoch-milliseconds number.
`d.getTime()` on a non-`Date` is a runtime fault. -/
def date : JB :=
  mapped number
    (fun v =>
      match v with
      | .vdate n => .ok (.vjson (.num n))
      | _ => .error (.fault "getTime on a non-Date"))
    (fun v =>
      match v with
      | .vjson (.num n) => .ok (.vdate n)
      | _ => .error (.fault "Date constructed from a non-number"))

/-! ## The `bigint` binding and a model of the JavaScript `BigInt(string)`
and `BigInt.prototype.toString` builtins -/

/-- Numeric value of a decimal digit character. -/
def digitVal (c : Char) : Nat := c.toNat - 48

/-- Decimal digit characters of a natural number, most significant first
(`Nat.digits` is little-endian, hence the reversal). -/
def natToChars (n : Nat) : List Char :=
  if n = 0 then ['0']
  else (Nat.digits 10 n).reverse.map (fun d => Char.ofNat (d + 48))

/-- Value of a digit string, most significant first. -/
def digitsToNat (cs : List Char) : Nat :=
  cs.foldl (fun a c => a * 10 + digitVal c) 0

/-- Model of `BigInt.prototype.toString()`: canonical decimal rendering with
a leading minus sign for negative values. -/
def jsBigIntToString (n : Int) : String :=
  if n < 0 then String.mk ('-' :: natToChars n.natAbs)
  else String.mk (natToChars n.natAbs)

/-- Hexadecimal digit value, if the character is one. -/
def hexVal (c : Char) : Option Nat :=
  if c.isDigit then some (digitVal c)
  else if 'a' ≤ c ∧ c ≤ 'f' then some (c.toNat - 87)
  else if 'A' ≤ c ∧ c ≤ 'F' then some (c.toNat - 55)
  else none

/-- Radix digits folded into a value, if every character is a digit of the
radix. -/
def radixToNat (radix : Nat) : List Char → Option Nat
  | [] => some 0
  | c :: cs =>
    match hexVal c, radixToNat radix cs with
    | some d, some rest => if d < radix then some (d * radix ^ cs.length + rest) else none
    | _, _ => none

/-- Model of the JavaScript `BigInt(string)` conversion (the
`StringToBigInt` algorithm) on its character list after trimming: the empty
string is `0`; an optional single sign followed by decimal digits; or an
unsigned `0x`/`0o`/`0b` radix literal.  A string of any other shape throws a
`SyntaxError`, modelled as `none`. -/
def jsBigIntChars (cs : List Char) : Option Int :=
  if cs.isEmpty then some 0
  else if cs.all Char.isDigit then some (Int.ofNat (digitsToNat cs))
  else
    match cs with
    | '+' :: rest =>
      if !rest.isEmpty && rest.all Char.isDigit then some (Int.ofNat (digitsToNat rest)) else none
    | '-' :: rest =>
      if !rest.isEmpty && rest.all Char.isDigit then some (-(Int.ofNat (digitsToNat rest))) else none
    | '0' :: 'x' :: rest => if rest.isEmpty then none else (radixToNat 16 rest).map Int.ofNat
    | '0' :: 'X' :: rest => if rest.isEmpty then none else (radixToNat 16 rest).map Int.ofNat
    | '0' :: 'o' :: rest => if rest.isEmpty then none else (radixToNat 8 rest).map Int.ofNat
    | '0' :: 'O' :: rest => if rest.isEmpty then none else (radixToNat 8 rest).map Int.ofNat
    | '0' :: 'b' :: rest => if rest.isEmpty then none else (radixToNat 2 rest).map Int.ofNat
    | '0' :: 'B' :: rest => if rest.isEmpty then none else (radixToNat 2 rest).map Int.ofNat
    | _ => none

/-- JavaScript whitespace as trimmed by `StringToBigInt` (the common
characters; exotic Unicode spaces are not exercised here). -/
def isJsWs (c : Char) : Bool := c == ' ' || c == '\t' || c == '\n' || c == '\r'

/-- Model of `BigInt(s)` for a string argument: trim whitespace, then parse. -/
def jsBigInt (s : String) : Option Int :=
  jsBigIntChars (((s.data.dropWhile isJsWs).reverse.dropWhile isJsWs).reverse)

/-- `bigint()`: serialises a `bigint` as its decimal string; decoding a
string on which `BigInt` throws a `SyntaxError` raises the structured decode
error of the source. -/
def bigint : JB :=
  mapped string
    (fun v =>
      match v with
      | .vbigint n => .ok (.vjson (.str (jsBigIntToString n)))
      | _ => .error (.fault "toString on a non-bigint"))
    (fun v =>
      match v with
      | .vjson (.str s) =>
        match jsBigInt s with
        | some n => .ok (.vbigint n)
        | none => .error (.parse ⟨"expected a string containing a bigint", []⟩)
      | _ => .error (.fault "BigInt of a non-string"))

/-! ## Structural combinators: array, stringMap, object -/

/-- The element loop of `array(...).fromJson`: decode each element,
pushing its index onto a structured failure before rethrowing. -/
def arrFromJson (jb : JB) : List Json → Nat → Except JErr (List Value)
  | [], _ => .ok []
  | j :: js, i =>
    match jb.fromJson j with
    | .error e => .error (pushIndex i e)
    | .ok v =>
      match arrFromJson jb js (i + 1) with
      | .error e => .error e
      | .ok vs => .ok (v :: vs)

/-- The element loop of `array(...).toJson` (`v.map(jbt.toJson)`); element
encode failures propagate uncaught. -/
def arrToJson (jb : JB) : List Value → Except JErr (List Json)
  | [] => .ok []
  | v :: vs => do
    let j ← jb.toJson v
    let js ← arrToJson jb vs
    .ok (j :: js)

/-- `array(jbt)`. -/
def array (jbt : JB) : JB where
  toJson v :=
    match v with
    | .varr vs => (arrToJson jbt vs).map .arr
    | _ => .error (.fault "map on a non-array")
  fromJson j :=
    match asJsonArray j with
    | none => .error (.parse ⟨"expected an array", []⟩)
    | some jarr => (arrFromJson jbt jarr 0).map .varr

/-- The entry loop of `stringMap(...).toJson`. -/
def smapToJson (jb : JB) : List (String × Value) → Except JErr (List (String × Json))
  | [] => .ok []
  | (k, v) :: kvs => do
    let j ← jb.toJson v
    let rest ← smapToJson jb kvs
    .ok ((k, j) :: rest)

/-- The entry loop of `stringMap(...).fromJson`: decode each entry's value,
pushing its key onto a structured failure before rethrowing. -/
def smapFromJson (jb : JB) : List (String × Json) → Except JErr (List (String × Value))
  | [] => .ok []
  | (k, j) :: kvs =>
    match jb.fromJson j with
    | .error e => .error (pushField k e)
    | .ok v =>
      match smapFromJson jb kvs with
      | .error e => .error e
      | .ok rest => .ok ((k, v) :: rest)

/-- `stringMap(jbt)`. -/
def stringMap (jbt : JB) : JB where
  toJson v :=
    match v with
    | .vobj kvs => (smapToJson jbt kvs).map .obj
    | _ => .error (.fault "key iteration on a non-object")
  fromJson j :=
    match asJsonObject j with
    | none => .error (.parse ⟨"expected an object", []⟩)
    | some jobj => (smapFromJson jbt jobj).map .vobj

/-- `JsonBindingWithDefault<T>`: a binding with an optional default-value
supplier.  The zero-argument supplier is pure, so it is modelled by the value
it returns. -/
structure JBD extends JB where
  defaultv : Option Value

/-- `withDefault(jb, defv)`. -/
def withDefault (jb : JB) (defv : Value) : JBD := ⟨jb, some defv⟩

/-- `withDefaultFn(jb, defaultv)`, the supplier modelled by its value. -/
def withDefaultFn (jb : JB) (defaultv : Unit → Value) : JBD := ⟨jb, some (defaultv ())⟩

/-- A plain field binding with no default attached. -/
def noDefault (jb : JB) : JBD := ⟨jb, none⟩

/-- First-match association-list lookup, modelling `o[key]` on a JavaScript
object (whose keys are unique at runtime). -/
def alookup {β : Type} : List (String × β) → String → Option β
  | [], _ => none
  | (k, b) :: kvs, key => if k = key then some b else alookup kvs key

/-- The field loop of `object(...).fromJson`, over the declared fields in
declaration order: absent field uses the default if attached, else throws
`expected an object with field <key>`; present field decodes with the field
binding, pushing the field name onto a structured failure. -/
def objFromJson : List (String × JBD) → List (String × Json) → Except JErr (List (String × Value))
  | [], _ => .ok []
  | (key, jbfield) :: rest, jvu =>
    match alookup jvu key with
    | none =>
      match jbfield.defaultv with
      | some d => (objFromJson rest jvu).map (fun r => (key, d) :: r)
      | none => .error (.parse ⟨"expected an object with field " ++ key, []⟩)
    | some jv =>
      match jbfield.toJB.fromJson jv with
      | .error e => .error (pushField key e)
      | .ok v => (objFromJson rest jvu).map (fun r => (key, v) :: r)

/-- The field loop of `object(...).toJson`: emit every declared field, in
declaration order, from the record's property (`undefined` when absent). -/
def objToJson : List (String × JBD) → List (String × Value) → Except JErr (List (String × Json))
  | [], _ => .ok []
  | (key, jbfield) :: rest, vu => do
    let j ← jbfield.toJB.toJson ((alookup vu key).getD .vundef)
    let r ← objToJson rest vu
    .ok ((key, j) :: r)

/-- `object(jbfields)`, the field list in declaration order. -/
def object (jbfields : List (String × JBD)) : JB where
  toJson v :=
    match v with
    | .vobj vu => (objToJson jbfields vu).map .obj
    | _ => .error (.fault "field access on a non-object")
  fromJson jv :=
    match asJsonObject jv with
    | none => .error (.parse ⟨"expected an object", []⟩)
    | some jvu => (objFromJson jbfields jvu).map .vobj

/-! ## Optional wrappers and pair -/

/-- `orNull(jbt)`: JSON null decodes to the JavaScript `null` sentinel. -/
def orNull (jbt : JB) : JB where
  toJson v :=
    match v with
    | .vnull => .ok .null
    | _ => jbt.toJson v
  fromJson j :=
    match j with
    | .null => .ok .vnull
    | _ => jbt.fromJson j

/-- `orUndefined(jbt)`: JSON null decodes to the JavaScript `undefined`
sentinel; `undefined` encodes to JSON null. -/
def orUndefined (jbt : JB) : JB where
  toJson v :=
    match v with
    | .vundef => .ok .null
    | _ => jbt.toJson v
  fromJson j :=
    match j with
    | .null => .ok .vundef
    | _ => jbt.fromJson j

/-- `pair(jba, jbb)`: encoded as a 2-element array.  The decode failure
handling is faithful to the source, which pushes index 0 for a failure in
either component (`e.pushIndex(0)` in both catch blocks) and whose size
mismatch message reads `expected a an array of size 2`. -/
def pair (jba jbb : JB) : JB where
  toJson v :=
    match v with
    | .varr [a, b] => do
      let ja ← jba.toJson a
      let jb2 ← jbb.toJson b
      .ok (.arr [ja, jb2])
    | _ => .error (.fault "component access on a non-pair")
  fromJson j :=
    match asJsonArray j with
    | some [j0, j1] =>
      match jba.fromJson j0 with
      | .error e => .error (pushIndex 0 e)
      | .ok a =>
        match jbb.fromJson j1 with
        | .error e => .error (pushIndex 0 e)
        | .ok b => .ok (.varr [a, b])
    | some _ => .error (.parse ⟨"expected a an array of size 2", []⟩)
    | none => .error (.parse ⟨"expected a an array of size 2", []⟩)

/-! ## `Map` and `Set` bindings

JavaScript `Map`/`Set` compare keys/elements with SameValueZero: value
equality on primitives, reference equality on objects.  Every composite
value reaching a `Map`/`Set` through this library's decoder is freshly
allocated, so reference equality between composites is modelled as
never-equal. -/

/-- Whether a host value is a JavaScript primitive (compared by value). -/
def jsPrim : Value → Bool
  | .vjson (.str _) | .vjson (.num _) | .vjson (.bool _) | .vjson .null => true
  | .vbigint _ | .vnull | .vundef => true
  | _ => false

/-- SameValueZero on host values, under the freshness convention above. -/
def svz (a b : Value) : Bool :=
  match a, b with
  | .vjson (.str x), .vjson (.str y) => x == y
  | .vjson (.num x), .vjson (.num y) => x == y
  | .vjson (.bool x), .vjson (.bool y) => x == y
  | .vjson .null, .vjson .null => true
  | .vbigint x, .vbigint y => x == y
  | .vnull, .vnull => true
  | .vundef, .vundef => true
  | _, _ => false

/-- `Map.prototype.set`: replace the value in place when an entry with a
SameValueZero-equal key exists (keeping the original key and position), else
append the new entry. -/
def mapSet (es : List (Value × Value)) (k v : Value) : List (Value × Value) :=
  if es.any (fun e => svz e.1 k) then
    es.map (fun e => if svz e.1 k then (e.1, v) else e)
  else es ++ [(k, v)]

/-- `entries.forEach(v => result.set(v[0], v[1]))` over an empty map. -/
def buildMap (ps : List (Value × Value)) : List (Value × Value) :=
  ps.foldl (fun acc p => mapSet acc p.1 p.2) []

/-- `Map.prototype.get`: the value of the first (unique) entry whose key is
SameValueZero-equal to `k`. -/
def svzLookup (es : List (Value × Value)) (k : Value) : Option Value :=
  (es.find? (fun e => svz e.1 k)).map Prod.snd

/-- `Set.prototype.add`. -/
def setAdd (es : List Value) (v : Value) : List Value :=
  if es.any (fun e => svz e v) then es else es ++ [v]

/-- `values.forEach(v => result.add(v))` over an empty set. -/
def buildSet (vs : List Value) : List Value :=
  vs.foldl setAdd []

/-- The component extraction `v[0]`, `v[1]` applied to each decoded pair
(`array(pair(...))` always yields 2-element arrays; anything else is a
modelling fault). -/
def pairComponents : List Value → Option (List (Value × Value))
  | [] => some []
  | .varr [k, v] :: rest => (pairComponents rest).map (fun r => (k, v) :: r)
  | _ :: _ => none

/-- `map(jbk, jbv)`: a `Map` as an array of `[key, value]` arrays in
iteration order, via `mapped` over `array(pair(jbk, jbv))`. -/
def map (jbk jbv : JB) : JB :=
  mapped (array (pair jbk jbv))
    (fun v =>
      match v with
      | .vmap es => .ok (.varr (es.map (fun e => .varr [e.1, e.2])))
      | _ => .error (.fault "entries on a non-Map"))
    (fun v =>
      match v with
      | .varr entries =>
        match pairComponents entries with
        | some kvs => .ok (.vmap (buildMap kvs))
        | none => .error (.fault "malformed pair in Map entries")
      | _ => .error (.fault "forEach on a non-array"))

/-- `set(jbt)`: a `Set` as an array of its elements in iteration order, via
`mapped` over `array(jbt)`. -/
def set (jbt : JB) : JB :=
  mapped (array jbt)
    (fun v =>
      match v with
      | .vset es => .ok (.varr es)
      | _ => .error (.fault "values on a non-Set"))
    (fun v =>
      match v with
      | .varr vs => .ok (.vset (buildSet vs))
      | _ => .error (.fault "forEach on a non-array"))

/-! ## The union combinator -/

/-- The branch loop of `union(...).toJson`: first branch whose tag equals
the value's runtime `kind` encodes the payload under that single key; no
match is the `BUG` programming fault (`new Error`, not a
`JsonParseException`). -/
def unionEnc (ubs : List (String × JB)) (kind : String) (val : Value) : Except JErr Json :=
  match ubs with
  | [] => .error (.fault "BUG: invalid kind passed to union toJson")
  | ub :: rest =>
    if ub.1 = kind then (ub.2.toJson val).map (fun j => .obj [(ub.1, j)])
    else unionEnc rest kind val

/-- The branch loop of `union(...).fromJson` once the single key is in hand:
first branch whose tag equals the key decodes the payload, pushing the tag
onto a structured failure; no match throws `invalid union kind: <key>`. -/
def unionDec (ubs : List (String × JB)) (kind : String) (payload : Json) : Except JErr Value :=
  match ubs with
  | [] => .error (.parse ⟨"invalid union kind: " ++ kind, []⟩)
  | ub :: rest =>
    if ub.1 = kind then
      match ub.2.fromJson payload with
      | .ok v => .ok (.vunion kind v)
      | .error e => .error (pushField kind e)
    else unionDec rest kind payload

/-- `union(ubs)`: wire form a single-keyed object.  A value without a
matching runtime tag (including a non-union value, whose `kind` property is
`undefined`) hits the `BUG` fault. -/
def union (ubs : List (String × JB)) : JB where
  toJson v :=
    match v with
    | .vunion kind val => unionEnc ubs kind val
    | _ => .error (.fault "BUG: invalid kind passed to union toJson")
  fromJson j :=
    match asJsonObject j with
    | some [(kind, payload)] => unionDec ubs kind payload
    | some _ => .error (.parse ⟨"expected a union value as a single keyed object", []⟩)
    | none => .error (.parse ⟨"expected a union value as a single keyed object", []⟩)

/-! ## The lazy binding: explicit-state model of the memoising cache -/

/-- The mutable state of one `lazy(fn)` binding instance: the cached
delegate (`let jb = undefined`) plus an instrumentation counter of how many
times `fn` has been invoked. -/
structure LazyState : Type where
  cache : Option JB
  count : Nat

/-- The state before any call. -/
def lazyInit : LazyState := ⟨none, 0⟩

/-- `getJb()`: construct and cache the delegate on first use. -/
def lazyGet (fn : Unit → JB) (st : LazyState) : JB × LazyState :=
  match st.cache with
  | none => (fn (), ⟨some (fn ()), st.count + 1⟩)
  | some jb => (jb, st)

/-- One external call on a lazy binding instance. -/
inductive LazyCall : Type where
  | enc : Value → LazyCall
  | dec : Json → LazyCall

/-- Dispatch one call through `getJb()`, threading the cache state. -/
def lazyStep (fn : Unit → JB) (st : LazyState) :
    LazyCall → Except JErr (Json ⊕ Value) × LazyState
  | .enc v =>
    match lazyGet fn st with
    | (jb, st2) => ((jb.toJson v).map Sum.inl, st2)
  | .dec j =>
    match lazyGet fn st with
    | (jb, st2) => ((jb.fromJson j).map Sum.inr, st2)

/-- Run a finite sequence of calls on one lazy binding instance, collecting
the outputs and the final state. -/
def lazyRun (fn : Unit → JB) : List LazyCall → LazyState →
    List (Except JErr (Json ⊕ Value)) × LazyState
  | [], st => ([], st)
  | c :: cs, st =>
    match lazyStep fn st c with
    | (o, st2) =>
      match lazyRun fn cs st2 with
      | (os, st3) => (o :: os, st3)

/-- The result each call would have when served directly by a binding. -/
def callSpec (jb : JB) : LazyCall → Except JErr (Json ⊕ Value)
  | .enc v => (jb.toJson v).map Sum.inl
  | .dec j => (jb.fromJson j).map Sum.inr

/-! ## The grammar of bindings built from the library's combinators

A finite term of this grammar is exactly a binding assembled bottom-up from
the public combinators (with `date`, `bigint`, `map` and `set` being the
library's own `mapped` instances; a `mapped` over caller-supplied conversion
functions and the `lazy` wrapper, which only memoises another such binding,
add nothing structural). -/

mutual
inductive Schema : Type where
  | sstring : Schema
  | snumber : Schema
  | sboolean : Schema
  | snull : Schema
  | sjson : Schema
  | sbigint : Schema
  | sdate : Schema
  | sarray : Schema → Schema
  | sstringMap : Schema → Schema
  | sorNull : Schema → Schema
  | sorUndefined : Schema → Schema
  | spair : Schema → Schema → Schema
  | smap : Schema → Schema → Schema
  | sset : Schema → Schema
  | sobject : Fields → Schema
  | sunion : Branches → Schema
inductive Fields : Type where
  | fnil : Fields
  | fcons : String → Schema → Option Value → Fields → Fields
inductive Branches : Type where
  | bnil : Branches
  | bcons : String → Schema → Branches → Branches
end

mutual
/-- Interpret a schema term by the corresponding combinator. -/
def buildJB : Schema → JB
  | .sstring => string
  | .snumber => number
  | .sboolean => boolean
  | .snull => nullv
  | .sjson => json
  | .sbigint => bigint
  | .sdate => date
  | .sarray s => array (buildJB s)
  | .sstringMap s => stringMap (buildJB s)
  | .sorNull s => orNull (buildJB s)
  | .sorUndefined s => orUndefined (buildJB s)
  | .spair a b => pair (buildJB a) (buildJB b)
  | .smap k v => map (buildJB k) (buildJB v)
  | .sset s => set (buildJB s)
  | .sobject fs => object (buildFields fs)
  | .sunion bs => union (buildBranches bs)
/-- Interpret an object field list (a field with `some` default is one
wrapped by `withDefault`/`withDefaultFn`). -/
def buildFields : Fields → List (String × JBD)
  | .fnil => []
  | .fcons name s dflt rest => (name, ⟨buildJB s, dflt⟩) :: buildFields rest
/-- Interpret a union branch list. -/
def buildBranches : Branches → List (String × JB)
  | .bnil => []
  | .bcons kind s rest => (kind, buildJB s) :: buildBranches rest
end

/-- The declared field names of an object schema. -/
def fieldNames : Fields → List String
  | .fnil => []
  | .fcons name _ _ rest => name :: fieldNames rest

/-- `t` round-trips through `jb`: encode succeeds and decoding the encoding
gives back `t`. -/
def RTv (jb : JB) (t : Value) : Prop :=
  ∃ j2, jb.toJson t = .ok j2 ∧ jb.fromJson j2 = .ok t

/-- The round-trip invariant of a binding: every decode-producible value
round-trips, and two bookkeeping facts that make the invariant inductive:
the re-encoded JSON is null only if the original input was, and the sentinel
host values `null`/`undefined` are only produced from JSON null. -/
def RTI (jb : JB) : Prop :=
  ∀ j t, jb.fromJson j = .ok t →
    (∃ j2, jb.toJson t = .ok j2 ∧ jb.fromJson j2 = .ok t ∧
      (j2 = Json.null → j = Json.null)) ∧
    ((t = Value.vnull ∨ t = Value.vundef) → j = Json.null)

/-- The round-trip invariant of a field binding: the binding satisfies
`RTI`, and its default value (when attached) round-trips through it. -/
def RTIF (f : JBD) : Prop :=
  RTI f.toJB ∧ ∀ d, f.defaultv = some d → RTv f.toJB d

mutual
/-- Well-formedness of a schema term: every object's declared field names
are pairwise distinct (they are the keys of a TypeScript record), and every
attached default value round-trips through its own field's binding. -/
def GoodS : Schema → Prop
  | .sarray s => GoodS s
  | .sstringMap s => GoodS s
  | .sorNull s => GoodS s
  | .sorUndefined s => GoodS s
  | .sset s => GoodS s
  | .spair a b => GoodS a ∧ GoodS b
  | .smap k v => GoodS k ∧ GoodS v
  | .sobject fs => GoodF fs ∧ (fieldNames fs).Nodup
  | .sunion bs => GoodB bs
  | _ => True
def GoodF : Fields → Prop
  | .fnil => True
  | .fcons _ s dflt rest =>
    GoodS s ∧ (∀ d, dflt = some d → RTv (buildJB s) d) ∧ GoodF rest
def GoodB : Branches → Prop
  | .bnil => True
  | .bcons _ s rest => GoodS s ∧ GoodB rest
end

/-! # Theorems -/

/-- Reduction of `Except` bind on a success. -/
theorem exBindOk {α β : Type} (a : α) (f : α → Except JErr β) :
    (Except.ok a >>= f) = f a := rfl

/-- Reduction of `Except` bind on an error. -/
theorem exBindErr {α β : Type} (e : JErr) (f : α → Except JErr β) :
    ((Except.error e : Except JErr α) >>= f) = Except.error e := rfl

/-- Reduction of `Except.map` on a success. -/
theorem exMapOk {α β : Type} (a : α) (f : α → β) :
    Except.map f (Except.ok a : Except JErr α) = Except.ok (f a) := rfl

/-- Reduction of `Except.map` on an error. -/
theorem exMapErr {α β : Type} (e : JErr) (f : α → β) :
    Except.map f (Except.error e : Except JErr α) = Except.error e := rfl

/-- **C2.** What `pair(...).fromJson` actually does at the claim's inputs:
the size-mismatch cause reads `expected a an array of size 2` (not the
claimed `expected an array of size 2`), and a decode failure in element 1
gets index 0 — not its own index 1 — pushed onto the error's path, because
the source's second catch block also calls `e.pushIndex(0)`. -/
theorem c2_pair_fromJson_actual :
    (pair string number).fromJson (.arr [.str "a", .str "b"])
      = .error (.parse ⟨"expected a number", ["[0]"]⟩)
    ∧ (pair string number).fromJson (.arr [])
      = .error (.parse ⟨"expected a an array of size 2", []⟩) :=
  ⟨rfl, rfl⟩

/-- **C5.** The decode error carries a cause and an ordered context list;
segments are appended innermost-first (`pushField` appends the bare field
name, `pushIndex` appends `[i]`); the rendered message joins `$` and the
segments outermost-first with `.`; and the spec's example
`array(object({name: string()}))` decoding `[{"x":1}]` fails with cause
`expected an object with field name` at rendered path `$.[0]`. -/
theorem c5_error_path_rendering :
    (∀ e : ParseErr, e.message = e.text ++ " at " ++ createContextString e.context)
    ∧ (∀ context, createContextString context
        = String.intercalate "." ("$" :: context.reverse))
    ∧ (∀ f t ctx, pushField f (.parse ⟨t, ctx⟩) = .parse ⟨t, ctx ++ [f]⟩)
    ∧ (∀ i t ctx, pushIndex i (.parse ⟨t, ctx⟩)
        = .parse ⟨t, ctx ++ ["[" ++ toString i ++ "]"]⟩)
    ∧ (array (object [("name", noDefault string)])).fromJson (.arr [.obj [("x", .num 1)]])
        = .error (.parse ⟨"expected an object with field name", ["[0]"]⟩)
    ∧ createContextString ["[0]"] = "$.[0]" := by
  refine ⟨fun e => rfl, fun context => ?_, fun f t ctx => rfl, fun i t ctx => rfl, rfl, rfl⟩
  simp [createContextString]

/-- Once the delegate is cached, every further call is served by it and the
state no longer changes. -/
theorem lazyRun_cached (fn : Unit → JB) (jb : JB) (n : Nat) :
    ∀ cs, lazyRun fn cs ⟨some jb, n⟩ = (cs.map (callSpec jb), ⟨some jb, n⟩) := by
  intro cs
  induction cs with
  | nil => rfl
  | cons c cs ih => cases c <;> simp [lazyRun, lazyStep, lazyGet, callSpec, ih]

/-- **C8.** For any `lazy(fn)` instance and any finite sequence of
encode/decode calls starting from the fresh state: every call (including
the first) is answered exactly as by `fn()`'s binding, the constructor runs
zero times when there are no calls and exactly once otherwise, and the
cache then holds that one delegate. -/
theorem c8_lazy_memoization (fn : Unit → JB) (calls : List LazyCall) :
    lazyRun fn calls lazyInit
      = (calls.map (callSpec (fn ())),
         if calls.isEmpty then lazyInit else ⟨some (fn ()), 1⟩) := by
  cases calls with
  | nil => rfl
  | cons c cs =>
    cases c <;>
      simp [lazyRun, lazyStep, lazyGet, lazyInit, callSpec, lazyRun_cached]

/-- **C4.** In `object(fields).fromJson` on a JSON object, a declared field
whose key is absent uses its attached default when one exists, and otherwise
fails with cause `expected an object with field <name>` and an empty context
(whose rendering is the bare root marker `$`); and the spec's example
`object({title: string(), level: withDefault(number(), 1)})` decodes
`{"title":"engineer"}` to `{title:"engineer", level:1}`. -/
theorem c4_object_missing_field :
    (∀ (key : String) (jbf : JBD) (rest : List (String × JBD)) (jkvs : List (String × Json)),
      alookup jkvs key = none →
        (∀ d, jbf.defaultv = some d →
          objFromJson ((key, jbf) :: rest) jkvs
            = (objFromJson rest jkvs).map (fun r => (key, d) :: r)) ∧
        (jbf.defaultv = none →
          (object ((key, jbf) :: rest)).fromJson (.obj jkvs)
            = .error (.parse ⟨"expected an object with field " ++ key, []⟩)))
    ∧ createContextString [] = "$"
    ∧ (object [("title", noDefault string), ("level", withDefault number (.vjson (.num 1)))]).fromJson
        (.obj [("title", .str "engineer")])
      = .ok (.vobj [("title", .vjson (.str "engineer")), ("level", .vjson (.num 1))]) := by
  refine ⟨fun key jbf rest jkvs h => ⟨fun d hd => ?_, fun hd => ?_⟩, rfl, rfl⟩
  · simp [objFromJson, h, hd]
  · simp [object, asJsonObject, objFromJson, h, hd, Except.map]

/-- **C4** witness: the defaulted branch and the missing-field error at
concrete inputs. -/
theorem c4_object_missing_field_witness :
    objFromJson [("level", withDefault number (.vjson (.num 1)))] [("title", .str "engineer")]
      = (objFromJson [] [("title", .str "engineer")]).map
          (fun r => ("level", .vjson (.num 1)) :: r)
    ∧ (object [("name", noDefault string)]).fromJson (.obj [])
      = .error (.parse ⟨"expected an object with field name", []⟩) :=
  ⟨(c4_object_missing_field.1 "level" (withDefault number (.vjson (.num 1))) []
      [("title", .str "engineer")] rfl).1 (.vjson (.num 1)) rfl,
   (c4_object_missing_field.1 "name" (noDefault string) [] [] rfl).2 rfl⟩

/-- **C10.** `object(fields).fromJson` reads only the declared keys of its
input (so extra, undeclared keys never cause an error and never change the
result); a successful decode's result has exactly the declared field names,
in declaration order; a successful encode likewise emits exactly the
declared field names; and a concrete input with an extra key decodes with
the extra key dropped. -/
theorem c10_object_ignores_extra_keys :
    (∀ (fields : List (String × JBD)) (jkvs jkvs2 : List (String × Json)),
      (∀ key jbf, (key, jbf) ∈ fields → alookup jkvs2 key = alookup jkvs key) →
      objFromJson fields jkvs2 = objFromJson fields jkvs)
    ∧ (∀ (fields : List (String × JBD)) jkvs res,
        objFromJson fields jkvs = .ok res → res.map Prod.fst = fields.map Prod.fst)
    ∧ (∀ (fields : List (String × JBD)) vu out,
        objToJson fields vu = .ok out → out.map Prod.fst = fields.map Prod.fst)
    ∧ (object [("title", noDefault string)]).fromJson
        (.obj [("title", .str "x"), ("extra", .bool true)])
      = .ok (.vobj [("title", .vjson (.str "x"))]) := by
  refine ⟨?_, ?_, ?_, rfl⟩
  · intro fields
    induction fields with
    | nil => intro jkvs jkvs2 h; rfl
    | cons f rest ih =>
      intro jkvs jkvs2 h
      obtain ⟨key, jbf⟩ := f
      have hk : alookup jkvs2 key = alookup jkvs key := h key jbf (by simp)
      have hr : objFromJson rest jkvs2 = objFromJson rest jkvs :=
        ih jkvs jkvs2 (fun key2 jbf2 hm => h key2 jbf2 (List.mem_cons_of_mem _ hm))
      simp only [objFromJson, hk, hr]
  · intro fields
    induction fields with
    | nil =>
      intro jkvs res h
      simp [objFromJson] at h
      simp [← h]
    | cons f rest ih =>
      intro jkvs res h
      obtain ⟨key, jbf⟩ := f
      simp only [objFromJson] at h
      cases hl : alookup jkvs key with
      | none =>
        simp only [hl] at h
        cases hd : jbf.defaultv with
        | none => simp [hd] at h
        | some d =>
          simp only [hd] at h
          cases hr : objFromJson rest jkvs with
          | error e => simp [hr, Except.map] at h
          | ok r =>
            simp [hr, Except.map] at h
            subst h
            simp [ih jkvs r hr]
      | some jv =>
        simp only [hl] at h
        cases hf : jbf.toJB.fromJson jv with
        | error e => simp [hf] at h
        | ok v =>
          simp only [hf] at h
          cases hr : objFromJson rest jkvs with
          | error e => simp [hr, Except.map] at h
          | ok r =>
            simp [hr, Except.map] at h
            subst h
            simp [ih jkvs r hr]
  · intro fields
    induction fields with
    | nil =>
      intro vu out h
      simp [objToJson] at h
      simp [← h]
    | cons f rest ih =>
      intro vu out h
      obtain ⟨key, jbf⟩ := f
      simp only [objToJson] at h
      cases hj : jbf.toJB.toJson ((alookup vu key).getD .vundef) with
      | error e => simp [hj, exBindErr] at h
      | ok j =>
        simp only [hj, exBindOk] at h
        cases hr : objToJson rest vu with
        | error e => simp [hr, exBindErr] at h
        | ok r =>
          simp [hr, exBindOk] at h
          subst h
          simp [ih vu r hr]

/-- **C10** witness: decode is insensitive to the extra key at a concrete
input, and the concrete results carry exactly the declared names. -/
theorem c10_object_ignores_extra_keys_witness :
    objFromJson [("title", noDefault string)] [("title", .str "x"), ("extra", .bool true)]
      = objFromJson [("title", noDefault string)] [("title", .str "x")]
    ∧ [("title", Value.vjson (.str "x"))].map Prod.fst
      = [("title", noDefault string)].map Prod.fst :=
  ⟨c10_object_ignores_extra_keys.1 _ _ _ (by intro key jbf hm; simp at hm; simp [hm, alookup]),
   c10_object_ignores_extra_keys.2.1 _ [("title", .str "x")] _ rfl⟩

/-- `unionDec` with no branch tag equal to the key fails with
`invalid union kind: <key>`. -/
theorem unionDec_no_match (kind : String) (payload : Json) :
    ∀ ubs : List (String × JB), (∀ ub ∈ ubs, ub.1 ≠ kind) →
      unionDec ubs kind payload = .error (.parse ⟨"invalid union kind: " ++ kind, []⟩) := by
  intro ubs
  induction ubs with
  | nil => intro h; rfl
  | cons ub rest ih =>
    intro h
    have h1 : ub.1 ≠ kind := h ub (by simp)
    simp only [unionDec, if_neg h1]
    exact ih (fun ub2 hm => h ub2 (List.mem_cons_of_mem _ hm))

/-- `unionDec` dispatches to the first branch whose tag equals the key. -/
theorem unionDec_first_match (kind : String) (payload : Json) (jb : JB)
    (rest : List (String × JB)) :
    ∀ pre : List (String × JB), (∀ ub ∈ pre, ub.1 ≠ kind) →
      unionDec (pre ++ (kind, jb) :: rest) kind payload
        = match jb.fromJson payload with
          | .ok v => .ok (.vunion kind v)
          | .error e => .error (pushField kind e) := by
  intro pre
  induction pre with
  | nil => intro h; simp [unionDec]
  | cons ub pre2 ih =>
    intro h
    have h1 : ub.1 ≠ kind := h ub (by simp)
    simp only [List.cons_append, unionDec, if_neg h1]
    exact ih (fun ub2 hm => h ub2 (List.mem_cons_of_mem _ hm))

/-- **C6.** `union(branches).fromJson`: a non-object input, and an object
input without exactly one key, fail with
`expected a union value as a single keyed object` and no context; a
single-keyed object whose key matches no branch tag fails with
`invalid union kind: <key>` and no context; and with exactly one key the
first branch (declaration order) whose tag equals the key decodes the
payload, a payload failure getting the tag pushed as context. -/
theorem c6_union_fromJson :
    (∀ (ubs : List (String × JB)) (j : Json), asJsonObject j = none →
      (union ubs).fromJson j
        = .error (.parse ⟨"expected a union value as a single keyed object", []⟩))
    ∧ (∀ (ubs : List (String × JB)) (kvs : List (String × Json)), kvs.length ≠ 1 →
      (union ubs).fromJson (.obj kvs)
        = .error (.parse ⟨"expected a union value as a single keyed object", []⟩))
    ∧ (∀ (ubs : List (String × JB)) (kind : String) (payload : Json),
      (∀ ub ∈ ubs, ub.1 ≠ kind) →
      (union ubs).fromJson (.obj [(kind, payload)])
        = .error (.parse ⟨"invalid union kind: " ++ kind, []⟩))
    ∧ (∀ (pre : List (String × JB)) (kind : String) (jb : JB) (rest : List (String × JB))
        (payload : Json), (∀ ub ∈ pre, ub.1 ≠ kind) →
      (union (pre ++ (kind, jb) :: rest)).fromJson (.obj [(kind, payload)])
        = match jb.fromJson payload with
          | .ok v => .ok (.vunion kind v)
          | .error e => .error (pushField kind e)) := by
  refine ⟨?_, ?_, ?_, ?_⟩
  · intro ubs j h
    cases j <;> simp [asJsonObject] at h ⊢ <;> rfl
  · intro ubs kvs h
    match kvs with
    | [] => rfl
    | [(kind, payload)] => simp at h
    | a :: b :: rest => rfl
  · intro ubs kind payload h
    simpa [union] using unionDec_no_match kind payload ubs h
  · intro pre kind jb rest payload h
    simpa [union] using unionDec_first_match kind payload jb rest pre h

/-- **C6** witness: the four behaviours at concrete inputs, including the
spec's `invalid union kind: xxxx` example. -/
theorem c6_union_fromJson_witness :
    (union [("user", string)]).fromJson (.str "z")
      = .error (.parse ⟨"expected a union value as a single keyed object", []⟩)
    ∧ (union [("user", string)]).fromJson (.obj [])
      = .error (.parse ⟨"expected a union value as a single keyed object", []⟩)
    ∧ (union [("user", string)]).fromJson (.obj [("xxxx", .null)])
      = .error (.parse ⟨"invalid union kind: xxxx", []⟩)
    ∧ (union ([] ++ ("user", string) :: [])).fromJson (.obj [("user", .num 3)])
      = .error (.parse ⟨"expected a string", ["user"]⟩) :=
  ⟨c6_union_fromJson.1 [("user", string)] (.str "z") rfl,
   c6_union_fromJson.2.1 [("user", string)] [] (by simp),
   c6_union_fromJson.2.2.1 [("user", string)] "xxxx" .null (by simp),
   c6_union_fromJson.2.2.2 [] "user" string [] (.num 3) (by simp)⟩

/-- `unionEnc` with no branch tag equal to the value's kind is the `BUG`
programming fault. -/
theorem unionEnc_no_match (kind : String) (val : Value) :
    ∀ ubs : List (String × JB), (∀ ub ∈ ubs, ub.1 ≠ kind) →
      unionEnc ubs kind val = .error (.fault "BUG: invalid kind passed to union toJson") := by
  intro ubs
  induction ubs with
  | nil => intro h; rfl
  | cons ub rest ih =>
    intro h
    have h1 : ub.1 ≠ kind := h ub (by simp)
    simp only [unionEnc, if_neg h1]
    exact ih (fun ub2 hm => h ub2 (List.mem_cons_of_mem _ hm))

/-- `unionEnc` dispatches to the first branch whose tag equals the kind. -/
theorem unionEnc_first_match (kind : String) (val : Value) (jb : JB)
    (rest : List (String × JB)) :
    ∀ pre : List (String × JB), (∀ ub ∈ pre, ub.1 ≠ kind) →
      unionEnc (pre ++ (kind, jb) :: rest) kind val
        = (jb.toJson val).map (fun j => .obj [(kind, j)]) := by
  intro pre
  induction pre with
  | nil => intro h; simp [unionEnc]
  | cons ub pre2 ih =>
    intro h
    have h1 : ub.1 ≠ kind := h ub (by simp)
    simp only [List.cons_append, unionEnc, if_neg h1]
    exact ih (fun ub2 hm => h ub2 (List.mem_cons_of_mem _ hm))

/-- **C7.** `union(branches).toJson`: when the value's runtime kind equals
some branch tag, the result is the single-keyed object with the payload
encoded by the first matching branch; when no branch tag matches, the result
is the `BUG` fault (`new Error`), which is not a `JsonParseException` and so
is not caught by decode-error handling. -/
theorem c7_union_toJson :
    (∀ (pre : List (String × JB)) (kind : String) (jb : JB) (rest : List (String × JB))
        (val : Value), (∀ ub ∈ pre, ub.1 ≠ kind) →
      (union (pre ++ (kind, jb) :: rest)).toJson (.vunion kind val)
        = (jb.toJson val).map (fun j => .obj [(kind, j)]))
    ∧ (∀ (ubs : List (String × JB)) (kind : String) (val : Value),
      (∀ ub ∈ ubs, ub.1 ≠ kind) →
      (union ubs).toJson (.vunion kind val)
        = .error (.fault "BUG: invalid kind passed to union toJson"))
    ∧ (∀ m, isJsonParseException (JErr.fault m) = false)
    ∧ (∀ e, isJsonParseException (JErr.parse e) = true) := by
  refine ⟨?_, ?_, fun m => rfl, fun e => rfl⟩
  · intro pre kind jb rest val h
    simpa [union] using unionEnc_first_match kind val jb rest pre h
  · intro ubs kind val h
    simpa [union] using unionEnc_no_match kind val ubs h

/-- **C7** witness: a matching kind encodes under its tag; a non-matching
kind is the `BUG` fault, which `isJsonParseException` rejects. -/
theorem c7_union_toJson_witness :
    (union ([] ++ ("user", string) :: [])).toJson (.vunion "user" (.vjson (.str "a")))
      = .ok (.obj [("user", .str "a")])
    ∧ (union [("user", string)]).toJson (.vunion "job" (.vjson (.str "a")))
      = .error (.fault "BUG: invalid kind passed to union toJson")
    ∧ isJsonParseException (JErr.fault "BUG: invalid kind passed to union toJson") = false :=
  ⟨c7_union_toJson.1 [] "user" string [] (.vjson (.str "a")) (by simp),
   c7_union_toJson.2.1 [("user", string)] "job" (.vjson (.str "a")) (by simp),
   c7_union_toJson.2.2.1 "BUG: invalid kind passed to union toJson"⟩

/-! ## SameValueZero lemmas -/

/-- SameValueZero-equal values are equal (in the model, `svz` only ever
identifies equal primitives). -/
theorem svz_eq {a b : Value} (h : svz a b = true) : a = b := by
  unfold svz at h
  split at h <;> simp_all

/-- SameValueZero-equal values are primitive. -/
theorem svz_prim {a b : Value} (h : svz a b = true) : jsPrim a = true := by
  unfold svz at h
  split at h <;> first
    | rfl
    | cases h

/-- A primitive value is SameValueZero-equal to itself. -/
theorem svz_self {a : Value} (h : jsPrim a = true) : svz a a = true := by
  unfold jsPrim at h
  split at h <;> simp_all [svz]

/-- `svz` is symmetric. -/
theorem svz_symm (a b : Value) : svz a b = svz b a := by
  by_cases h1 : svz a b = true
  · have e := svz_eq h1; subst e; rfl
  · by_cases h2 : svz b a = true
    · have e := svz_eq h2; subst e; simp_all
    · simp only [Bool.not_eq_true] at h1 h2; rw [h1, h2]

/-- Lookup after the in-place-replace pass of `Map.set`. -/
theorem svzLookup_map_replace (k2 v2 k : Value) :
    ∀ es : List (Value × Value),
      svzLookup (es.map (fun e => if svz e.1 k2 then (e.1, v2) else e)) k
        = if svz k2 k then (svzLookup es k).map (fun _ => v2) else svzLookup es k := by
  intro es
  induction es with
  | nil => cases h : svz k2 k <;> simp [svzLookup, h]
  | cons e es ih =>
    have hfst : (if svz e.1 k2 then (e.1, v2) else e).1 = e.1 := by
      cases h : svz e.1 k2 <;> rfl
    cases hk : svz e.1 k with
    | true =>
      have hek : e.1 = k := svz_eq hk
      have h12 : svz e.1 k2 = svz k2 k := by rw [hek, svz_symm]
      simp only [svzLookup, List.map_cons, List.find?_cons, hfst, hk]
      cases h2 : svz k2 k <;> simp_all
    | false =>
      simp only [svzLookup, List.map_cons, List.find?_cons, hfst, hk] at ih ⊢
      cases h2 : svz k2 k <;> simp_all [svzLookup]

/-- Lookup after `Map.set`: the freshly written value wins for the written
key; other keys are untouched. -/
theorem svzLookup_mapSet (es : List (Value × Value)) (k2 v2 k : Value) :
    svzLookup (mapSet es k2 v2) k = if svz k2 k then some v2 else svzLookup es k := by
  unfold mapSet
  cases hany : es.any (fun e => svz e.1 k2) with
  | false =>
    simp only [Bool.false_eq_true, if_false]
    cases h2 : svz k2 k with
    | true =>
      have hk2 : k2 = k := svz_eq h2
      have hnone : svzLookup es k = none := by
        unfold svzLookup
        cases hf : es.find? (fun e => svz e.1 k) with
        | none => rfl
        | some e =>
          have hm := List.find?_some hf
          have hmem := List.mem_of_find?_eq_some hf
          have : es.any (fun e => svz e.1 k2) = true := by
            rw [List.any_eq_true]
            exact ⟨e, hmem, by rw [hk2]; exact hm⟩
          rw [this] at hany; cases hany
      unfold svzLookup at hnone ⊢
      cases hf : es.find? (fun e => svz e.1 k) with
      | some e => rw [hf] at hnone; cases hnone
      | none =>
        rw [List.find?_append, hf]
        simp [h2]
    | false =>
      unfold svzLookup
      rw [List.find?_append]
      cases hf : es.find? (fun e => svz e.1 k) <;> simp [h2]
  | true =>
    simp only [if_true]
    rw [svzLookup_map_replace]
    cases h2 : svz k2 k with
    | true =>
      have hk2 : k2 = k := svz_eq h2
      obtain ⟨e, hmem, he⟩ := List.any_eq_true.mp hany
      have hsome : (svzLookup es k).isSome := by
        unfold svzLookup
        have : (es.find? (fun e => svz e.1 k)).isSome := by
          rw [List.find?_isSome]
          exact ⟨e, hmem, by rw [← hk2]; exact he⟩
        cases hf : es.find? (fun e => svz e.1 k) with
        | none => rw [hf] at this; cases this
        | some e2 => rfl
      simp only [if_true]
      cases hf : svzLookup es k with
      | none => rw [hf] at hsome; cases hsome
      | some v => simp
    | false => simp

/-- Building a map entry list is a left fold of `Map.set`. -/
theorem buildMap_append (kvs : List (Value × Value)) (p : Value × Value) :
    buildMap (kvs ++ [p]) = mapSet (buildMap kvs) p.1 p.2 := by
  unfold buildMap
  rw [List.foldl_append]
  rfl

/-- Last write wins: after inserting a pair list in order into an empty
`Map`, the stored value for a (primitive) key is the value of the last pair
whose key is SameValueZero-equal to it. -/
theorem buildMap_last_write_wins (k : Value) :
    ∀ kvs : List (Value × Value),
      svzLookup (buildMap kvs) k
        = (kvs.reverse.find? (fun p => svz p.1 k)).map Prod.snd := by
  intro kvs
  induction kvs using List.reverseRecOn with
  | nil => rfl
  | append_singleton kvs p ih =>
    rw [buildMap_append, svzLookup_mapSet, List.reverse_append]
    simp only [List.reverse_cons, List.reverse_nil, List.nil_append, List.cons_append,
      List.find?_cons]
    cases h : svz p.1 k <;> simp [h, ih]

/-- Every value produced by the element loop of `array(...).fromJson` is
itself an output of the element binding's decode. -/
theorem arrFromJson_ok_mem (jb : JB) :
    ∀ (js : List Json) (i : Nat) (vs : List Value),
      arrFromJson jb js i = .ok vs → ∀ v ∈ vs, ∃ j2, jb.fromJson j2 = .ok v := by
  intro js
  induction js with
  | nil => intro i vs h v hv; simp [arrFromJson] at h; subst h; simp at hv
  | cons j js ih =>
    intro i vs h v hv
    simp only [arrFromJson] at h
    cases hf : jb.fromJson j with
    | error e => simp [hf] at h
    | ok v1 =>
      simp only [hf] at h
      cases hr : arrFromJson jb js (i + 1) with
      | error e => simp [hr] at h
      | ok vs1 =>
        simp [hr] at h
        subst h
        rcases List.mem_cons.mp hv with h1 | h1
        · exact ⟨j, by rw [← h1] at hf; exact hf⟩
        · exact ih (i + 1) vs1 hr v h1

/-- The shape of a successful `pair(...).fromJson`: the input is a
2-element array and the output a 2-element host array whose components come
from the two component decodes. -/
theorem pair_fromJson_ok_shape (jba jbb : JB) (j : Json) (v : Value)
    (h : (pair jba jbb).fromJson j = .ok v) :
    ∃ j0 j1 x y, j = .arr [j0, j1] ∧ v = .varr [x, y] ∧
      jba.fromJson j0 = .ok x ∧ jbb.fromJson j1 = .ok y := by
  simp only [pair] at h
  cases hj : asJsonArray j with
  | none => rw [hj] at h; cases h
  | some js =>
    rw [hj] at h
    match js, h with
    | [j0, j1], h =>
      cases hx : jba.fromJson j0 with
      | error e => simp [hx] at h
      | ok x =>
        simp only [hx] at h
        cases hy : jbb.fromJson j1 with
        | error e => simp [hy] at h
        | ok y =>
          simp [hy] at h
          have hja : j = .arr [j0, j1] := by
            cases j <;> simp [asJsonArray] at hj
            rw [hj]
          exact ⟨j0, j1, x, y, hja, h.symm, hx, hy⟩

/-- A list of 2-element host arrays has extractable pair components. -/
theorem pairComponents_of_pairs :
    ∀ ps : List Value, (∀ v ∈ ps, ∃ x y, v = Value.varr [x, y]) →
      ∃ kvs, pairComponents ps = some kvs := by
  intro ps
  induction ps with
  | nil => intro _; exact ⟨[], rfl⟩
  | cons p ps ih =>
    intro h
    obtain ⟨x, y, hp⟩ := h p (by simp)
    obtain ⟨kvs, hk⟩ := ih (fun v hv => h v (List.mem_cons_of_mem _ hv))
    subst hp
    exact ⟨(x, y) :: kvs, by simp [pairComponents, hk]⟩

/-- **C9.** `map(jbk, jbv)`: encode produces the JSON array of 2-element
`[key, value]` arrays of the `Map`'s entries in iteration order (it is the
`array(pair(jbk, jbv))` encoding of those entries); decode decodes the pairs
with `array(pair(...))` and then inserts them into an empty `Map` in array
order, so that for a duplicated (primitive) key the value stored is that of
the last matching pair (last write wins); and the concrete duplicate-key
example shows the later value winning. -/
theorem c9_map_binding :
    (∀ (jbk jbv : JB) (es : List (Value × Value)),
      (map jbk jbv).toJson (.vmap es)
        = (array (pair jbk jbv)).toJson (.varr (es.map (fun e => .varr [e.1, e.2]))))
    ∧ (∀ (jbk jbv : JB) (j : Json) (ps : List Value),
      (array (pair jbk jbv)).fromJson j = .ok (.varr ps) →
      ∃ kvs, pairComponents ps = some kvs ∧
        (map jbk jbv).fromJson j = .ok (.vmap (buildMap kvs)))
    ∧ (∀ (kvs : List (Value × Value)) (k : Value),
      svzLookup (buildMap kvs) k = (kvs.reverse.find? (fun p => svz p.1 k)).map Prod.snd)
    ∧ (map string number).fromJson
        (.arr [.arr [.str "a", .num 1], .arr [.str "b", .num 2], .arr [.str "a", .num 3]])
      = .ok (.vmap [(.vjson (.str "a"), .vjson (.num 3)), (.vjson (.str "b"), .vjson (.num 2))]) := by
  refine ⟨fun jbk jbv es => rfl, ?_, fun kvs k => buildMap_last_write_wins k kvs, rfl⟩
  intro jbk jbv j ps h
  have hps : ∀ v ∈ ps, ∃ x y, v = Value.varr [x, y] := by
    intro v hv
    simp only [array] at h
    cases hj : asJsonArray j with
    | none => rw [hj] at h; cases h
    | some js =>
      rw [hj] at h
      cases hr : arrFromJson (pair jbk jbv) js 0 with
      | error e => simp [hr, exMapErr] at h
      | ok vs =>
        simp [hr, exMapOk] at h
        obtain ⟨j2, hj2⟩ := arrFromJson_ok_mem _ js 0 vs hr v (h ▸ hv)
        obtain ⟨_, _, x, y, _, hv2, _, _⟩ := pair_fromJson_ok_shape jbk jbv j2 v hj2
        exact ⟨x, y, hv2⟩
  obtain ⟨kvs, hk⟩ := pairComponents_of_pairs ps hps
  refine ⟨kvs, hk, ?_⟩
  show ((array (pair jbk jbv)).fromJson j >>= _) = _
  rw [h, exBindOk]
  simp [hk]

/-- **C9** witness: the decode side and the last-write-wins law at concrete
inputs. -/
theorem c9_map_binding_witness :
    (∃ kvs, pairComponents [Value.varr [.vjson (.str "a"), .vjson (.num 1)]] = some kvs ∧
      (map string number).fromJson (.arr [.arr [.str "a", .num 1]])
        = .ok (.vmap (buildMap kvs)))
    ∧ svzLookup (buildMap [(Value.vjson (.str "a"), Value.vjson (.num 1)),
        (Value.vjson (.str "a"), Value.vjson (.num 3))]) (Value.vjson (.str "a"))
      = some (.vjson (.num 3)) :=
  ⟨c9_map_binding.2.1 string number (.arr [.arr [.str "a", .num 1]])
      [Value.varr [.vjson (.str "a"), .vjson (.num 1)]] rfl,
   (c9_map_binding.2.2.1 [(Value.vjson (.str "a"), Value.vjson (.num 1)),
        (Value.vjson (.str "a"), Value.vjson (.num 3))] (Value.vjson (.str "a"))).trans
     (by rfl)⟩

/-- **C3** counterexample: on the malformed string "xx" the decode error's
cause is `expected a string containing a bigint`, which is not the claimed
`expected a string containing a valid integer`. -/
theorem c3_bigint_message_counterexample :
    bigint.fromJson (.str "xx")
      = .error (.parse ⟨"expected a string containing a bigint", []⟩)
    ∧ (JErr.parse ⟨"expected a string containing a bigint", []⟩
        ≠ .parse ⟨"expected a string containing a valid integer", []⟩) :=
  ⟨rfl, by decide⟩

/-- **C3** amended: on a string input on which `BigInt` throws a
`SyntaxError`, decode fails with cause `expected a string containing a
bigint` (and no context); on a string `BigInt` accepts, decode returns the
corresponding arbitrary-precision integer; and encode of any bigint
produces its decimal string. -/
theorem c3_bigint_amended :
    (∀ s : String, jsBigInt s = none →
      bigint.fromJson (.str s)
        = .error (.parse ⟨"expected a string containing a bigint", []⟩))
    ∧ (∀ (s : String) (n : Int), jsBigInt s = some n →
      bigint.fromJson (.str s) = .ok (.vbigint n))
    ∧ (∀ n : Int, bigint.toJson (.vbigint n) = .ok (.str (jsBigIntToString n))) := by
  refine ⟨?_, ?_, fun n => rfl⟩
  · intro s h
    simp [bigint, mapped, string, identityJsonBinding, h, exBindOk]
  · intro s n h
    simp [bigint, mapped, string, identityJsonBinding, h, exBindOk]

/-- **C3** witness: the malformed input "xx", the accepted input "42", and
the encoding of `0`. -/
theorem c3_bigint_amended_witness :
    bigint.fromJson (.str "xx")
      = .error (.parse ⟨"expected a string containing a bigint", []⟩)
    ∧ bigint.fromJson (.str "42") = .ok (.vbigint 42)
    ∧ bigint.toJson (.vbigint 0) = .ok (.str "0") :=
  ⟨c3_bigint_amended.1 "xx" rfl,
   c3_bigint_amended.2.1 "42" 42 rfl,
   (c3_bigint_amended.2.2 0).trans (by rfl)⟩

/-- **C1** counterexample: the binding
`object({x: withDefault(orNull(orUndefined(nullv())), undefined)})` is built
from the library's combinators, and its own decode produces
`{x: undefined}` from `{}` (via the default), yet decoding the encoding of
that value gives `{x: null}`, which is a different host value. -/
theorem c1_roundtrip_counterexample :
    (buildJB (.sobject (.fcons "x" (.sorNull (.sorUndefined .snull)) (some .vundef) .fnil))).fromJson
        (.obj [])
      = .ok (.vobj [("x", .vundef)])
    ∧ (buildJB (.sobject (.fcons "x" (.sorNull (.sorUndefined .snull)) (some .vundef) .fnil))).toJson
        (.vobj [("x", .vundef)])
      = .ok (.obj [("x", .null)])
    ∧ (buildJB (.sobject (.fcons "x" (.sorNull (.sorUndefined .snull)) (some .vundef) .fnil))).fromJson
        (.obj [("x", .null)])
      = .ok (.vobj [("x", .vnull)])
    ∧ Value.vobj [("x", .vnull)] ≠ Value.vobj [("x", .vundef)] := by
  refine ⟨rfl, rfl, rfl, ?_⟩
  intro h
  simp at h

/-! ## Decimal round trip of the `BigInt` model -/

/-- `digitsToNat` over an appended digit. -/
theorem digitsToNat_append (cs : List Char) (c : Char) :
    digitsToNat (cs ++ [c]) = digitsToNat cs * 10 + digitVal c := by
  simp [digitsToNat, List.foldl_append]

/-- Digit characters round-trip through `digitVal`. -/
theorem digitVal_ofNat {d : Nat} (h : d < 10) :
    digitVal (Char.ofNat (d + 48)) = d := by
  interval_cases d <;> rfl

/-- Characters built from digits satisfy `Char.isDigit`. -/
theorem isDigit_ofNat {d : Nat} (h : d < 10) :
    (Char.ofNat (d + 48)).isDigit = true := by
  interval_cases d <;> rfl

/-- Folding the reversed digit characters of a digit list recovers
`Nat.ofDigits`. -/
theorem digitsToNat_of_digits :
    ∀ ds : List Nat, (∀ d ∈ ds, d < 10) →
      digitsToNat (ds.reverse.map (fun d => Char.ofNat (d + 48))) = Nat.ofDigits 10 ds := by
  intro ds
  induction ds with
  | nil => intro _; rfl
  | cons d ds ih =>
    intro h
    rw [List.reverse_cons, List.map_append, List.map_cons, List.map_nil,
      digitsToNat_append, ih (fun d2 hm => h d2 (List.mem_cons_of_mem _ hm)),
      digitVal_ofNat (h d (by simp)), Nat.ofDigits_cons]
    ring

/-- The decimal rendering of a natural number is a nonempty digit string
evaluating back to it. -/
theorem natToChars_spec (n : Nat) :
    natToChars n ≠ [] ∧ (natToChars n).all Char.isDigit = true ∧
      digitsToNat (natToChars n) = n := by
  unfold natToChars
  by_cases h0 : n = 0
  · subst h0; refine ⟨by simp, by simp, rfl⟩
  · rw [if_neg h0]
    have hlt : ∀ d ∈ Nat.digits 10 n, d < 10 :=
      fun d hd => Nat.digits_lt_base (by omega) hd
    refine ⟨?_, ?_, (digitsToNat_of_digits _ hlt).trans (Nat.ofDigits_digits 10 n)⟩
    · simp [Nat.digits_ne_nil_iff_ne_zero.mpr h0]
    · rw [List.all_eq_true]
      intro c hc
      rw [List.mem_map] at hc
      obtain ⟨d, hd, rfl⟩ := hc
      exact isDigit_ofNat (hlt d (List.mem_reverse.mp hd))

/-- Dropping while a predicate fails on every element is the identity. -/
theorem dropWhile_all_false {p : Char → Bool} :
    ∀ cs : List Char, (∀ c ∈ cs, p c = false) → cs.dropWhile p = cs := by
  intro cs h
  cases cs with
  | nil => rfl
  | cons c cs2 => simp [List.dropWhile_cons, h c (by simp)]

/-- Trimming (both ends) of a whitespace-free character list is the
identity. -/
theorem trim_of_no_ws (cs : List Char) (h : ∀ c ∈ cs, isJsWs c = false) :
    ((cs.dropWhile isJsWs).reverse.dropWhile isJsWs).reverse = cs := by
  rw [dropWhile_all_false cs h,
    dropWhile_all_false cs.reverse (fun c hc => h c (List.mem_reverse.mp hc)),
    List.reverse_reverse]

/-- Digit characters are not JavaScript whitespace. -/
theorem isDigit_not_ws {c : Char} (h : c.isDigit = true) : isJsWs c = false := by
  unfold isJsWs
  by_contra hws
  simp only [Bool.not_eq_false, Bool.or_eq_true, beq_iff_eq] at hws
  rcases hws with ((h1 | h1) | h1) | h1 <;> subst h1 <;> simp [Char.isDigit] at h

/-- Round trip: the JavaScript `BigInt` conversion recovers any integer from
its own decimal rendering. -/
theorem jsBigInt_jsBigIntToString (n : Int) : jsBigInt (jsBigIntToString n) = some n := by
  obtain ⟨hne, hdig, hval⟩ := natToChars_spec n.natAbs
  have hdig2 : ∀ c ∈ natToChars n.natAbs, c.isDigit = true := by
    rw [List.all_eq_true] at hdig
    exact hdig
  unfold jsBigInt jsBigIntToString
  by_cases hneg : n < 0
  · rw [if_pos hneg]
    show jsBigIntChars ((((String.mk _).data.dropWhile isJsWs).reverse.dropWhile
      isJsWs).reverse) = some n
    have hnows : ∀ c ∈ '-' :: natToChars n.natAbs, isJsWs c = false := by
      intro c hc
      rcases List.mem_cons.mp hc with rfl | hc
      · rfl
      · exact isDigit_not_ws (hdig2 c hc)
    rw [show (String.mk ('-' :: natToChars n.natAbs)).data = '-' :: natToChars n.natAbs from rfl,
      trim_of_no_ws _ hnows]
    have hnotall : ('-' :: natToChars n.natAbs).all Char.isDigit = false := by
      simp [List.all_cons, Char.isDigit]
    unfold jsBigIntChars
    rw [if_neg (by simp), if_neg (by rw [hnotall]; simp)]
    have hrest : (!(natToChars n.natAbs).isEmpty && (natToChars n.natAbs).all Char.isDigit)
        = true := by
      rw [hdig]
      simp [List.isEmpty_iff, hne]
    simp only [hrest, if_true]
    rw [hval]
    congr 1
    simp only [Int.ofNat_eq_natCast]
    omega
  · rw [if_neg hneg]
    show jsBigIntChars ((((String.mk _).data.dropWhile isJsWs).reverse.dropWhile
      isJsWs).reverse) = some n
    have hnows : ∀ c ∈ natToChars n.natAbs, isJsWs c = false :=
      fun c hc => isDigit_not_ws (hdig2 c hc)
    rw [show (String.mk (natToChars n.natAbs)).data = natToChars n.natAbs from rfl,
      trim_of_no_ws _ hnows]
    unfold jsBigIntChars
    rw [if_neg (by simp [List.isEmpty_iff, hne]), if_pos hdig]
    rw [hval]
    congr 1
    simp only [Int.ofNat_eq_natCast]
    omega

/-! ## The round-trip invariant, combinator by combinator -/

/-- Every identity binding satisfies the round-trip invariant. -/
theorem rti_identityJsonBinding (expected : String) (p : Json → Bool) :
    RTI (identityJsonBinding expected p) := by
  intro j t h
  simp only [identityJsonBinding] at h
  by_cases hp : p j = true
  · rw [if_pos hp] at h
    cases h
    refine ⟨⟨j, rfl, ?_, fun h2 => h2⟩, by simp⟩
    simp [identityJsonBinding, hp]
  · rw [if_neg hp] at h
    cases h

/-- `date` satisfies the round-trip invariant. -/
theorem rti_date : RTI date := by
  intro j t h
  cases j <;> simp [date, mapped, number, identityJsonBinding, exBindOk, exBindErr] at h
  subst h
  exact ⟨⟨.num _, rfl, rfl, fun h2 => by cases h2⟩, by simp⟩

/-- `bigint` satisfies the round-trip invariant. -/
theorem rti_bigint : RTI bigint := by
  intro j t h
  cases j <;> simp [bigint, mapped, string, identityJsonBinding, exBindOk, exBindErr] at h
  rename_i s
  cases hb : jsBigInt s with
  | none => rw [hb] at h; cases h
  | some n =>
    rw [hb] at h
    cases h
    refine ⟨⟨.str (jsBigIntToString n), rfl, ?_, fun h2 => by cases h2⟩, by simp⟩
    simp [bigint, mapped, string, identityJsonBinding, exBindOk, jsBigInt_jsBigIntToString]

/-- `isNull` recognises exactly the JSON null. -/
theorem isNull_iff (j : Json) : j.isNull = true ↔ j = Json.null := by
  cases j <;> simp [Json.isNull]

/-- `isVnull` recognises exactly the host `null`. -/
theorem isVnull_iff (v : Value) : v.isVnull = true ↔ v = Value.vnull := by
  cases v <;> simp [Value.isVnull]

/-- `isVundef` recognises exactly the host `undefined`. -/
theorem isVundef_iff (v : Value) : v.isVundef = true ↔ v = Value.vundef := by
  cases v <;> simp [Value.isVundef]

/-- Evaluation of `orNull(...).fromJson` as a conditional. -/
theorem orNull_fromJson (jbt : JB) (j : Json) :
    (orNull jbt).fromJson j = if j.isNull then .ok .vnull else jbt.fromJson j := by
  cases j <;> simp [orNull, Json.isNull]

/-- Evaluation of `orNull(...).toJson` as a conditional. -/
theorem orNull_toJson (jbt : JB) (v : Value) :
    (orNull jbt).toJson v = if v.isVnull then .ok .null else jbt.toJson v := by
  cases v <;> simp [orNull, Value.isVnull]

/-- Evaluation of `orUndefined(...).fromJson` as a conditional. -/
theorem orUndefined_fromJson (jbt : JB) (j : Json) :
    (orUndefined jbt).fromJson j = if j.isNull then .ok .vundef else jbt.fromJson j := by
  cases j <;> simp [orUndefined, Json.isNull]

/-- Evaluation of `orUndefined(...).toJson` as a conditional. -/
theorem orUndefined_toJson (jbt : JB) (v : Value) :
    (orUndefined jbt).toJson v = if v.isVundef then .ok .null else jbt.toJson v := by
  cases v <;> simp [orUndefined, Value.isVundef]

/-- `orNull` preserves the round-trip invariant. -/
theorem rti_orNull (jbt : JB) (hi : RTI jbt) : RTI (orNull jbt) := by
  intro j t h
  rw [orNull_fromJson] at h
  by_cases hj : j = Json.null
  · rw [if_pos ((isNull_iff j).mpr hj)] at h
    cases h
    exact ⟨⟨.null, by rw [orNull_toJson]; rfl, by rw [orNull_fromJson]; rfl,
      fun _ => hj⟩, fun _ => hj⟩
  · rw [if_neg (fun e => hj ((isNull_iff j).mp e))] at h
    obtain ⟨⟨j2, htj, hfj, hnull⟩, hsent⟩ := hi j t h
    have htn : ¬ t.isVnull = true := fun e => hj (hsent (Or.inl ((isVnull_iff t).mp e)))
    have hj2 : j2 ≠ Json.null := fun e => hj (hnull e)
    refine ⟨⟨j2, ?_, ?_, fun e => absurd e hj2⟩, fun e => absurd (hsent e) hj⟩
    · rw [orNull_toJson, if_neg htn]; exact htj
    · rw [orNull_fromJson, if_neg (fun e => hj2 ((isNull_iff j2).mp e))]; exact hfj

/-- `orUndefined` preserves the round-trip invariant. -/
theorem rti_orUndefined (jbt : JB) (hi : RTI jbt) : RTI (orUndefined jbt) := by
  intro j t h
  rw [orUndefined_fromJson] at h
  by_cases hj : j = Json.null
  · rw [if_pos ((isNull_iff j).mpr hj)] at h
    cases h
    exact ⟨⟨.null, by rw [orUndefined_toJson]; rfl, by rw [orUndefined_fromJson]; rfl,
      fun _ => hj⟩, fun _ => hj⟩
  · rw [if_neg (fun e => hj ((isNull_iff j).mp e))] at h
    obtain ⟨⟨j2, htj, hfj, hnull⟩, hsent⟩ := hi j t h
    have htn : ¬ t.isVundef = true := fun e => hj (hsent (Or.inr ((isVundef_iff t).mp e)))
    have hj2 : j2 ≠ Json.null := fun e => hj (hnull e)
    refine ⟨⟨j2, ?_, ?_, fun e => absurd e hj2⟩, fun e => absurd (hsent e) hj⟩
    · rw [orUndefined_toJson, if_neg htn]; exact htj
    · rw [orUndefined_fromJson, if_neg (fun e => hj2 ((isNull_iff j2).mp e))]; exact hfj

/-- A list of values that each round-trip through the element binding
encodes elementwise and decodes back, whatever the starting index. -/
theorem arr_rt_of_rtv (jb : JB) :
    ∀ vs : List Value, (∀ v ∈ vs, RTv jb v) →
      ∃ js2, arrToJson jb vs = .ok js2 ∧ ∀ i2, arrFromJson jb js2 i2 = .ok vs := by
  intro vs
  induction vs with
  | nil => intro _; exact ⟨[], rfl, fun i2 => rfl⟩
  | cons v vs ih =>
    intro h
    obtain ⟨j2, htj, hfj⟩ := h v (by simp)
    obtain ⟨js2, htr, hfr⟩ := ih (fun v2 hm => h v2 (List.mem_cons_of_mem _ hm))
    refine ⟨j2 :: js2, ?_, ?_⟩
    · simp [arrToJson, htj, htr, exBindOk]
    · intro i2
      simp [arrFromJson, hfj, hfr (i2 + 1)]

/-- The element loop of a successful array decode yields values that each
round-trip, given the invariant for the element binding. -/
theorem arrFromJson_rtv (jb : JB) (hi : RTI jb) (js : List Json) (i : Nat)
    (vs : List Value) (h : arrFromJson jb js i = .ok vs) : ∀ v ∈ vs, RTv jb v := by
  intro v hv
  obtain ⟨j2, hj2⟩ := arrFromJson_ok_mem jb js i vs h v hv
  obtain ⟨⟨j3, htj, hfj, _⟩, _⟩ := hi j2 v hj2
  exact ⟨j3, htj, hfj⟩

/-- `array` preserves the round-trip invariant. -/
theorem rti_array (jbt : JB) (hi : RTI jbt) : RTI (array jbt) := by
  intro j t h
  simp only [array] at h
  cases hj : asJsonArray j with
  | none => rw [hj] at h; cases h
  | some js =>
    rw [hj] at h
    cases hr : arrFromJson jbt js 0 with
    | error e => simp [hr, exMapErr] at h
    | ok vs =>
      simp [hr, exMapOk] at h
      subst h
      obtain ⟨js2, htr, hfr⟩ := arr_rt_of_rtv jbt vs (arrFromJson_rtv jbt hi js 0 vs hr)
      refine ⟨⟨.arr js2, ?_, ?_, fun e => by cases e⟩, by simp⟩
      · simp [array, htr, exMapOk]
      · simp [array, asJsonArray, hfr 0, exMapOk]

/-- Entry lists whose values each round-trip through the value binding
encode entrywise and decode back, keys preserved. -/
theorem smap_rt_of_rtv (jb : JB) :
    ∀ kvs : List (String × Value), (∀ e ∈ kvs, RTv jb e.2) →
      ∃ out, smapToJson jb kvs = .ok out ∧ smapFromJson jb out = .ok kvs := by
  intro kvs
  induction kvs with
  | nil => intro _; exact ⟨[], rfl, rfl⟩
  | cons e kvs ih =>
    intro h
    obtain ⟨j2, htj, hfj⟩ := h e (by simp)
    obtain ⟨out, htr, hfr⟩ := ih (fun e2 hm => h e2 (List.mem_cons_of_mem _ hm))
    refine ⟨(e.1, j2) :: out, ?_, ?_⟩
    · simp [smapToJson, htj, htr, exBindOk]
    · simp [smapFromJson, hfj, hfr]

/-- Every value produced by the entry loop of `stringMap(...).fromJson` is
an output of the value binding's decode. -/
theorem smapFromJson_ok_mem (jb : JB) :
    ∀ (kvs : List (String × Json)) (res : List (String × Value)),
      smapFromJson jb kvs = .ok res → ∀ e ∈ res, ∃ j2, jb.fromJson j2 = .ok e.2 := by
  intro kvs
  induction kvs with
  | nil => intro res h e he; simp [smapFromJson] at h; subst h; simp at he
  | cons kv kvs ih =>
    intro res h e he
    simp only [smapFromJson] at h
    cases hf : jb.fromJson kv.2 with
    | error e2 => rw [show jb.fromJson kv.2 = jb.fromJson kv.2 from rfl] at h; simp [hf] at h
    | ok v =>
      simp only [hf] at h
      cases hr : smapFromJson jb kvs with
      | error e2 => simp [hr] at h
      | ok res2 =>
        simp [hr] at h
        subst h
        rcases List.mem_cons.mp he with h1 | h1
        · exact ⟨kv.2, by rw [h1]; exact hf⟩
        · exact ih res2 hr e h1

/-- `stringMap` preserves the round-trip invariant. -/
theorem rti_stringMap (jbt : JB) (hi : RTI jbt) : RTI (stringMap jbt) := by
  intro j t h
  simp only [stringMap] at h
  cases hj : asJsonObject j with
  | none => rw [hj] at h; cases h
  | some kvs =>
    rw [hj] at h
    cases hr : smapFromJson jbt kvs with
    | error e => simp [hr, exMapErr] at h
    | ok res =>
      simp [hr, exMapOk] at h
      subst h
      have hrtv : ∀ e ∈ res, RTv jbt e.2 := by
        intro e he
        obtain ⟨j2, hj2⟩ := smapFromJson_ok_mem jbt kvs res hr e he
        obtain ⟨⟨j3, htj, hfj, _⟩, _⟩ := hi j2 e.2 hj2
        exact ⟨j3, htj, hfj⟩
      obtain ⟨out, htr, hfr⟩ := smap_rt_of_rtv jbt res hrtv
      refine ⟨⟨.obj out, ?_, ?_, fun e => by cases e⟩, by simp⟩
      · simp [stringMap, htr, exMapOk]
      · simp [stringMap, asJsonObject, hfr, exMapOk]

/-- A 2-element host array whose components round-trip through the two
component bindings round-trips through `pair`. -/
theorem pair_rtv (jba jbb : JB) (x y : Value) (hx : RTv jba x) (hy : RTv jbb y) :
    RTv (pair jba jbb) (.varr [x, y]) := by
  obtain ⟨jx, htx, hfx⟩ := hx
  obtain ⟨jy, hty, hfy⟩ := hy
  refine ⟨.arr [jx, jy], ?_, ?_⟩
  · simp [pair, htx, hty, exBindOk]
  · simp [pair, asJsonArray, hfx, hfy]

/-- `pair` preserves the round-trip invariant. -/
theorem rti_pair (jba jbb : JB) (ha : RTI jba) (hb : RTI jbb) : RTI (pair jba jbb) := by
  intro j t h
  obtain ⟨j0, j1, x, y, hja, hv, hfx, hfy⟩ := pair_fromJson_ok_shape jba jbb j t h
  subst hv
  obtain ⟨⟨jx, htx, hfx2, _⟩, _⟩ := ha j0 x hfx
  obtain ⟨⟨jy, hty, hfy2, _⟩, _⟩ := hb j1 y hfy
  obtain ⟨j2, htj, hfj⟩ := pair_rtv jba jbb x y ⟨jx, htx, hfx2⟩ ⟨jy, hty, hfy2⟩
  have hj2 : j2 = .arr [jx, jy] := by
    simp [pair, htx, hty, exBindOk] at htj
    exact htj.symm
  refine ⟨⟨j2, htj, hfj, fun e => by rw [hj2] at e; cases e⟩, by simp⟩

/-- `Map.set` preserves pairwise SameValueZero-freshness of keys. -/
theorem mapSet_pairwise (es : List (Value × Value)) (k v : Value)
    (h : List.Pairwise (fun p q => svz p.1 q.1 = false) es) :
    List.Pairwise (fun p q => svz p.1 q.1 = false) (mapSet es k v) := by
  unfold mapSet
  cases hany : es.any (fun e => svz e.1 k) with
  | true =>
    simp only [hany, if_true]
    refine List.Pairwise.map _ ?_ h
    intro a b hab
    have ha : (if svz a.1 k then (a.1, v) else a).1 = a.1 := by
      cases h2 : svz a.1 k <;> rfl
    have hb : (if svz b.1 k then (b.1, v) else b).1 = b.1 := by
      cases h2 : svz b.1 k <;> rfl
    rw [ha, hb]
    exact hab
  | false =>
    simp only [hany, Bool.false_eq_true, if_false]
    rw [List.pairwise_append]
    refine ⟨h, by simp, ?_⟩
    intro a ha b hb
    rw [List.mem_singleton] at hb
    subst hb
    have := List.any_eq_false.mp hany a ha
    simpa using this

/-- Folding `Map.set` preserves pairwise freshness. -/
theorem foldl_mapSet_pairwise :
    ∀ (ps : List (Value × Value)) (acc : List (Value × Value)),
      List.Pairwise (fun p q => svz p.1 q.1 = false) acc →
      List.Pairwise (fun p q => svz p.1 q.1 = false)
        (List.foldl (fun a q => mapSet a q.1 q.2) acc ps) := by
  intro ps
  induction ps with
  | nil => intro acc h; exact h
  | cons q ps ih => intro acc h; exact ih _ (mapSet_pairwise acc q.1 q.2 h)

/-- The entry list built by decode has pairwise-fresh keys. -/
theorem buildMap_pairwise (ps : List (Value × Value)) :
    List.Pairwise (fun p q => svz p.1 q.1 = false) (buildMap ps) :=
  foldl_mapSet_pairwise ps [] (by simp)

/-- Inserting pairwise-fresh entries appends them in order. -/
theorem foldl_mapSet_of_pairwise :
    ∀ (es acc : List (Value × Value)),
      List.Pairwise (fun p q => svz p.1 q.1 = false) (acc ++ es) →
      List.foldl (fun a q => mapSet a q.1 q.2) acc es = acc ++ es := by
  intro es
  induction es with
  | nil => intro acc _; simp
  | cons e es ih =>
    intro acc h
    have hsep : ∀ a ∈ acc, svz a.1 e.1 = false := by
      intro a ha
      exact (List.pairwise_append.mp h).2.2 a ha e (by simp)
    have hany : acc.any (fun a => svz a.1 e.1) = false := by
      rw [List.any_eq_false]
      intro a ha
      simp [hsep a ha]
    have hstep : mapSet acc e.1 e.2 = acc ++ [e] := by
      unfold mapSet
      rw [hany]
      simp
    rw [List.foldl_cons, hstep, ih (acc ++ [e]) (by rw [List.append_assoc]; simpa using h)]
    simp

/-- Re-inserting an already-fresh entry list reproduces it. -/
theorem buildMap_self (es : List (Value × Value))
    (h : List.Pairwise (fun p q => svz p.1 q.1 = false) es) : buildMap es = es := by
  have := foldl_mapSet_of_pairwise es [] (by simpa using h)
  simpa [buildMap] using this

/-- Keys and values of the built entry list come from the inserted pairs. -/
theorem foldl_mapSet_mem {P Q : Value → Prop} :
    ∀ (ps acc : List (Value × Value)),
      (∀ p ∈ acc, P p.1 ∧ Q p.2) → (∀ p ∈ ps, P p.1 ∧ Q p.2) →
      ∀ p ∈ List.foldl (fun a q => mapSet a q.1 q.2) acc ps, P p.1 ∧ Q p.2 := by
  intro ps
  induction ps with
  | nil => intro acc hacc _ p hp; exact hacc p hp
  | cons q ps ih =>
    intro acc hacc hps p hp
    refine ih (mapSet acc q.1 q.2) ?_ (fun r hr => hps r (List.mem_cons_of_mem _ hr)) p hp
    intro r hr
    unfold mapSet at hr
    cases hany : acc.any (fun e => svz e.1 q.1) with
    | true =>
      rw [hany] at hr
      simp only [if_true] at hr
      rw [List.mem_map] at hr
      obtain ⟨a, ha, rfl⟩ := hr
      cases h2 : svz a.1 q.1 with
      | true => simp only [h2, if_true]; exact ⟨(hacc a ha).1, (hps q (by simp)).2⟩
      | false => simp only [h2, Bool.false_eq_true, if_false]; exact hacc a ha
    | false =>
      rw [hany] at hr
      simp only [Bool.false_eq_true, if_false] at hr
      rcases List.mem_append.mp hr with h1 | h1
      · exact hacc r h1
      · rw [List.mem_singleton] at h1; subst h1; exact hps q (by simp)

/-- `pairComponents` inverts the entry-to-pair embedding. -/
theorem pairComponents_pairize :
    ∀ es : List (Value × Value),
      pairComponents (es.map (fun e => .varr [e.1, e.2])) = some es := by
  intro es
  induction es with
  | nil => rfl
  | cons e es ih => simp [pairComponents, ih]

/-- A successful `pairComponents` means the list was exactly the embedded
pairs. -/
theorem pairComponents_some :
    ∀ (ps : List Value) (kvs : List (Value × Value)), pairComponents ps = some kvs →
      ps = kvs.map (fun e => .varr [e.1, e.2]) := by
  intro ps
  induction ps with
  | nil => intro kvs h; simp [pairComponents] at h; subst h; rfl
  | cons p ps ih =>
    intro kvs h
    match p, h with
    | .varr [k, v], h =>
      simp only [pairComponents] at h
      cases hr : pairComponents ps with
      | none => rw [hr] at h; cases h
      | some kvs2 =>
        rw [hr] at h
        cases h
        simp [ih kvs2 hr]

/-- `map` preserves the round-trip invariant. -/
theorem rti_map (jbk jbv : JB) (hik : RTI jbk) (hiv : RTI jbv) : RTI (map jbk jbv) := by
  intro j t h
  cases hr : (array (pair jbk jbv)).fromJson j with
  | error e => simp [map, mapped, hr, exBindErr] at h
  | ok w =>
    simp only [map, mapped, hr, exBindOk] at h
    simp only [array] at hr
    cases hja : asJsonArray j with
    | none => rw [hja] at hr; cases hr
    | some js =>
      rw [hja] at hr
      cases hr2 : arrFromJson (pair jbk jbv) js 0 with
      | error e => simp [hr2, exMapErr] at hr
      | ok vs =>
        simp [hr2, exMapOk] at hr
        subst hr
        cases hpc : pairComponents vs with
        | none => simp only [hpc] at h; cases h
        | some kvs =>
          simp only [hpc] at h
          cases h
          have hmem : ∀ p ∈ kvs, RTv jbk p.1 ∧ RTv jbv p.2 := by
            intro p hp
            have hpin : Value.varr [p.1, p.2] ∈ vs := by
              rw [pairComponents_some vs kvs hpc]
              exact List.mem_map_of_mem _ hp
            obtain ⟨j2, hj2⟩ := arrFromJson_ok_mem _ js 0 vs hr2 _ hpin
            obtain ⟨j0, j1, x, y, _, hvxy, hfx, hfy⟩ :=
              pair_fromJson_ok_shape jbk jbv j2 _ hj2
            have hx : x = p.1 := by
              have := hvxy
              simp at this
              exact this.1.symm
            have hy : y = p.2 := by
              have := hvxy
              simp at this
              exact this.2.symm
            subst hx; subst hy
            obtain ⟨⟨j3, htx, hfx2, _⟩, _⟩ := hik j0 p.1 hfx
            obtain ⟨⟨j4, hty, hfy2, _⟩, _⟩ := hiv j1 p.2 hfy
            exact ⟨⟨j3, htx, hfx2⟩, ⟨j4, hty, hfy2⟩⟩
          have hesmem : ∀ p ∈ buildMap kvs, RTv jbk p.1 ∧ RTv jbv p.2 :=
            foldl_mapSet_mem kvs [] (by simp) hmem
          have hpw := buildMap_pairwise kvs
          have hvs2 : ∀ v2 ∈ (buildMap kvs).map (fun e => Value.varr [e.1, e.2]),
              RTv (pair jbk jbv) v2 := by
            intro v2 hv2
            rw [List.mem_map] at hv2
            obtain ⟨p, hp, rfl⟩ := hv2
            exact pair_rtv jbk jbv p.1 p.2 (hesmem p hp).1 (hesmem p hp).2
          obtain ⟨js2, htr, hfr⟩ := arr_rt_of_rtv (pair jbk jbv) _ hvs2
          refine ⟨⟨.arr js2, ?_, ?_, fun e => by cases e⟩, by simp⟩
          · simp [map, mapped, array, htr, exMapOk, exBindOk]
          · simp [map, mapped, array, asJsonArray, hfr 0, exMapOk, exBindOk,
              pairComponents_pairize, buildMap_self _ hpw]

/-- `Set.add` preserves pairwise SameValueZero-freshness. -/
theorem setAdd_pairwise (es : List Value) (v : Value)
    (h : List.Pairwise (fun a b => svz a b = false) es) :
    List.Pairwise (fun a b => svz a b = false) (setAdd es v) := by
  unfold setAdd
  cases hany : es.any (fun e => svz e v) with
  | true => simpa [hany] using h
  | false =>
    simp only [hany, Bool.false_eq_true, if_false]
    rw [List.pairwise_append]
    refine ⟨h, by simp, ?_⟩
    intro a ha b hb
    rw [List.mem_singleton] at hb
    subst hb
    simpa using List.any_eq_false.mp hany a ha

/-- Folding `Set.add` preserves pairwise freshness. -/
theorem foldl_setAdd_pairwise :
    ∀ (vs acc : List Value),
      List.Pairwise (fun a b => svz a b = false) acc →
      List.Pairwise (fun a b => svz a b = false) (List.foldl setAdd acc vs) := by
  intro vs
  induction vs with
  | nil => intro acc h; exact h
  | cons v vs ih => intro acc h; exact ih _ (setAdd_pairwise acc v h)

/-- The element list built by a set decode is pairwise fresh. -/
theorem buildSet_pairwise (vs : List Value) :
    List.Pairwise (fun a b => svz a b = false) (buildSet vs) :=
  foldl_setAdd_pairwise vs [] (by simp)

/-- Adding pairwise-fresh elements appends them in order. -/
theorem foldl_setAdd_of_pairwise :
    ∀ (es acc : List Value),
      List.Pairwise (fun a b => svz a b = false) (acc ++ es) →
      List.foldl setAdd acc es = acc ++ es := by
  intro es
  induction es with
  | nil => intro acc _; simp
  | cons e es ih =>
    intro acc h
    have hany : acc.any (fun a => svz a e) = false := by
      rw [List.any_eq_false]
      intro a ha
      simp [(List.pairwise_append.mp h).2.2 a ha e (by simp)]
    have hstep : setAdd acc e = acc ++ [e] := by
      unfold setAdd
      rw [hany]
      simp
    rw [List.foldl_cons, hstep, ih (acc ++ [e]) (by rw [List.append_assoc]; simpa using h)]
    simp

/-- Re-adding an already-fresh element list reproduces it. -/
theorem buildSet_self (es : List Value)
    (h : List.Pairwise (fun a b => svz a b = false) es) : buildSet es = es := by
  have := foldl_setAdd_of_pairwise es [] (by simpa using h)
  simpa [buildSet] using this

/-- Elements of the built set come from the added elements. -/
theorem foldl_setAdd_mem {P : Value → Prop} :
    ∀ (vs acc : List Value), (∀ v ∈ acc, P v) → (∀ v ∈ vs, P v) →
      ∀ v ∈ List.foldl setAdd acc vs, P v := by
  intro vs
  induction vs with
  | nil => intro acc hacc _ v hv; exact hacc v hv
  | cons w vs ih =>
    intro acc hacc hvs v hv
    refine ih (setAdd acc w) ?_ (fun r hr => hvs r (List.mem_cons_of_mem _ hr)) v hv
    intro r hr
    unfold setAdd at hr
    cases hany : acc.any (fun e => svz e w) with
    | true => rw [hany] at hr; simp only [if_true] at hr; exact hacc r hr
    | false =>
      rw [hany] at hr
      simp only [Bool.false_eq_true, if_false] at hr
      rcases List.mem_append.mp hr with h1 | h1
      · exact hacc r h1
      · rw [List.mem_singleton] at h1; subst h1; exact hvs _ (List.mem_cons_self _ _)

/-- `set` preserves the round-trip invariant. -/
theorem rti_set (jbt : JB) (hi : RTI jbt) : RTI (set jbt) := by
  intro j t h
  cases hr : (array jbt).fromJson j with
  | error e => simp [set, mapped, hr, exBindErr] at h
  | ok w =>
    simp only [set, mapped, hr, exBindOk] at h
    simp only [array] at hr
    cases hja : asJsonArray j with
    | none => rw [hja] at hr; cases hr
    | some js =>
      rw [hja] at hr
      cases hr2 : arrFromJson jbt js 0 with
      | error e => simp [hr2, exMapErr] at hr
      | ok vs =>
        simp [hr2, exMapOk] at hr
        subst hr
        cases h
        have hmem : ∀ v ∈ buildSet vs, RTv jbt v :=
          foldl_setAdd_mem vs [] (by simp) (arrFromJson_rtv jbt hi js 0 vs hr2)
        have hpw := buildSet_pairwise vs
        obtain ⟨js2, htr, hfr⟩ := arr_rt_of_rtv jbt _ hmem
        refine ⟨⟨.arr js2, ?_, ?_, fun e => by cases e⟩, by simp⟩
        · simp [set, mapped, array, htr, exMapOk, exBindOk]
        · simp [set, mapped, array, asJsonObject, asJsonArray, hfr 0, exMapOk, exBindOk,
            buildSet_self _ hpw]

/-- The heart of the object round trip: a successful field-loop decode can
be re-encoded from any record agreeing with its result on the declared
names, and the re-encoding re-decodes to the same result from any object
agreeing with it on the declared names. -/
theorem obj_rt_aux :
    ∀ fields : List (String × JBD),
      (∀ f ∈ fields, RTIF f.2) → (fields.map Prod.fst).Nodup →
      ∀ (jkvs : List (String × Json)) (res : List (String × Value)),
        objFromJson fields jkvs = .ok res →
        ∀ big : List (String × Value),
          (∀ key ∈ fields.map Prod.fst, alookup big key = alookup res key) →
          ∃ out, objToJson fields big = .ok out ∧
            ∀ bigj : List (String × Json),
              (∀ key ∈ fields.map Prod.fst, alookup bigj key = alookup out key) →
              objFromJson fields bigj = .ok res := by
  intro fields
  induction fields with
  | nil =>
    intro _ _ jkvs res h big _
    simp [objFromJson] at h
    subst h
    exact ⟨[], rfl, fun bigj _ => rfl⟩
  | cons f fields ih =>
    intro hall hnodup jkvs res h big hbig
    obtain ⟨key, jbf⟩ := f
    have hkey : key ∉ fields.map Prod.fst := by
      simp only [List.map_cons, List.nodup_cons] at hnodup
      exact hnodup.1
    have hnodup2 : (fields.map Prod.fst).Nodup := by
      simp only [List.map_cons, List.nodup_cons] at hnodup
      exact hnodup.2
    have hrtif : RTIF jbf := hall (key, jbf) (by simp)
    simp only [objFromJson] at h
    -- the decoded head value `v` and the tail result `res2`
    have hsplit : ∃ v res2, res = (key, v) :: res2 ∧ objFromJson fields jkvs = .ok res2 ∧
        RTv jbf.toJB v := by
      cases hl : alookup jkvs key with
      | none =>
        simp only [hl] at h
        cases hd : jbf.defaultv with
        | none => simp [hd] at h
        | some d =>
          simp only [hd] at h
          cases hr : objFromJson fields jkvs with
          | error e => simp [hr, exMapErr] at h
          | ok res2 =>
            simp [hr, exMapOk] at h
            exact ⟨d, res2, h.symm, rfl, hrtif.2 d hd⟩
      | some jv =>
        simp only [hl] at h
        cases hf : jbf.toJB.fromJson jv with
        | error e => simp [hf] at h
        | ok v =>
          simp only [hf] at h
          cases hr : objFromJson fields jkvs with
          | error e => simp [hr, exMapErr] at h
          | ok res2 =>
            simp [hr, exMapOk] at h
            obtain ⟨⟨j2, htj, hfj, _⟩, _⟩ := hrtif.1 jv v hf
            exact ⟨v, res2, h.symm, rfl, ⟨j2, htj, hfj⟩⟩
    obtain ⟨v, res2, rfl, hr2, j2, htj, hfj⟩ := hsplit
    have hbighead : alookup big key = some v := by
      rw [hbig key (by simp)]
      simp [alookup]
    have hbig2 : ∀ key2 ∈ fields.map Prod.fst, alookup big key2 = alookup res2 key2 := by
      intro key2 hm
      have hne : key ≠ key2 := fun e => hkey (e ▸ hm)
      rw [hbig key2 (by simp [hm])]
      simp [alookup, hne]
    obtain ⟨out2, hout2, hsecond⟩ := ih (fun f hm => hall f (List.mem_cons_of_mem _ hm))
      hnodup2 jkvs res2 hr2 big hbig2
    refine ⟨(key, j2) :: out2, ?_, ?_⟩
    · simp [objToJson, hbighead, htj, hout2, exBindOk]
    · intro bigj hbigj
      have hbigjhead : alookup bigj key = some j2 := by
        rw [hbigj key (by simp)]
        simp [alookup]
      have hbigj2 : ∀ key2 ∈ fields.map Prod.fst, alookup bigj key2 = alookup out2 key2 := by
        intro key2 hm
        have hne : key ≠ key2 := fun e => hkey (e ▸ hm)
        rw [hbigj key2 (by simp [hm])]
        simp [alookup, hne]
      simp [objFromJson, hbigjhead, hfj, hsecond bigj hbigj2, exMapOk]

/-- `object` preserves the round-trip invariant, given per-field invariants
and distinct declared names. -/
theorem rti_object (fields : List (String × JBD)) (hall : ∀ f ∈ fields, RTIF f.2)
    (hnodup : (fields.map Prod.fst).Nodup) : RTI (object fields) := by
  intro j t h
  simp only [object] at h
  cases hj : asJsonObject j with
  | none => rw [hj] at h; cases h
  | some jkvs =>
    rw [hj] at h
    cases hr : objFromJson fields jkvs with
    | error e => simp [hr, exMapErr] at h
    | ok res =>
      simp [hr, exMapOk] at h
      subst h
      obtain ⟨out, hout, hsecond⟩ :=
        obj_rt_aux fields hall hnodup jkvs res hr res (fun key _ => rfl)
      refine ⟨⟨.obj out, ?_, ?_, fun e => by cases e⟩, by simp⟩
      · simp [object, hout, exMapOk]
      · simp [object, asJsonObject, hsecond out (fun key _ => rfl), exMapOk]

/-- The shape of a successful `unionDec`: the first matching branch, in
declaration order, decoded the payload. -/
theorem unionDec_ok_shape (kind : String) (payload : Json) :
    ∀ (ubs : List (String × JB)) (t : Value), unionDec ubs kind payload = .ok t →
      ∃ pre jb rest v, ubs = pre ++ (kind, jb) :: rest ∧ (∀ ub ∈ pre, ub.1 ≠ kind) ∧
        jb.fromJson payload = .ok v ∧ t = .vunion kind v := by
  intro ubs
  induction ubs with
  | nil => intro t h; cases h
  | cons ub rest ih =>
    intro t h
    simp only [unionDec] at h
    by_cases he : ub.1 = kind
    · rw [if_pos he] at h
      cases hf : ub.2.fromJson payload with
      | error e => rw [hf] at h; cases h
      | ok v =>
        rw [hf] at h
        cases h
        exact ⟨[], ub.2, rest, v, by simp [← he], by simp, hf, rfl⟩
    · rw [if_neg he] at h
      obtain ⟨pre, jb, rest2, v, hsplit, hpre, hf, ht⟩ := ih t h
      refine ⟨ub :: pre, jb, rest2, v, by simp [hsplit], ?_, hf, ht⟩
      intro ub2 hm
      rcases List.mem_cons.mp hm with h1 | h1
      · rw [h1]; exact he
      · exact hpre ub2 h1

/-- `union` preserves the round-trip invariant, given per-branch
invariants. -/
theorem rti_union (ubs : List (String × JB)) (hall : ∀ ub ∈ ubs, RTI ub.2) :
    RTI (union ubs) := by
  intro j t h
  simp only [union] at h
  cases hj : asJsonObject j with
  | none => rw [hj] at h; cases h
  | some kvs =>
    rw [hj] at h
    match kvs, h with
    | [(kind, payload)], h =>
      obtain ⟨pre, jb, rest, v, hsplit, hpre, hf, rfl⟩ :=
        unionDec_ok_shape kind payload ubs t h
      have hmem : (kind, jb) ∈ ubs := by rw [hsplit]; simp
      obtain ⟨⟨j2, htj, hfj, _⟩, _⟩ := hall (kind, jb) hmem payload v hf
      refine ⟨⟨.obj [(kind, j2)], ?_, ?_, fun e => by cases e⟩, by simp⟩
      · show unionEnc ubs kind v = _
        rw [hsplit, unionEnc_first_match kind v jb rest pre hpre, htj]
        rfl
      · show (union ubs).fromJson (.obj [(kind, j2)]) = _
        simp only [union, asJsonObject]
        rw [hsplit, unionDec_first_match kind j2 jb rest pre hpre, hfj]

/-- The interpreted field names are the declared names. -/
theorem buildFields_names : ∀ fs : Fields, (buildFields fs).map Prod.fst = fieldNames fs
  | .fnil => rfl
  | .fcons name s dflt rest => by
    simp [buildFields, fieldNames, buildFields_names rest]

mutual
/-- Every well-formed schema's binding satisfies the round-trip invariant. -/
theorem goodS_rti : ∀ s : Schema, GoodS s → RTI (buildJB s)
  | .sstring, _ => rti_identityJsonBinding _ _
  | .snumber, _ => rti_identityJsonBinding _ _
  | .sboolean, _ => rti_identityJsonBinding _ _
  | .snull, _ => rti_identityJsonBinding _ _
  | .sjson, _ => rti_identityJsonBinding _ _
  | .sbigint, _ => rti_bigint
  | .sdate, _ => rti_date
  | .sarray s, h => rti_array _ (goodS_rti s h)
  | .sstringMap s, h => rti_stringMap _ (goodS_rti s h)
  | .sorNull s, h => rti_orNull _ (goodS_rti s h)
  | .sorUndefined s, h => rti_orUndefined _ (goodS_rti s h)
  | .spair a b, h => rti_pair _ _ (goodS_rti a h.1) (goodS_rti b h.2)
  | .smap k v, h => rti_map _ _ (goodS_rti k h.1) (goodS_rti v h.2)
  | .sset s, h => rti_set _ (goodS_rti s h)
  | .sobject fs, h =>
    rti_object (buildFields fs) (goodF_rti fs h.1)
      (by rw [buildFields_names]; exact h.2)
  | .sunion bs, h => rti_union _ (goodB_rti bs h)
/-- Every field of a well-formed field list satisfies the field
invariant. -/
theorem goodF_rti : ∀ fs : Fields, GoodF fs → ∀ f ∈ buildFields fs, RTIF f.2
  | .fcons name s dflt rest, h => by
    intro f hf
    rcases List.mem_cons.mp hf with h1 | h1
    · subst h1
      exact ⟨goodS_rti s h.1, h.2.1⟩
    · exact goodF_rti rest h.2.2 f h1
  | .fnil, _ => by intro f hf; simp [buildFields] at hf
/-- Every branch of a well-formed branch list satisfies the invariant. -/
theorem goodB_rti : ∀ bs : Branches, GoodB bs → ∀ ub ∈ buildBranches bs, RTI ub.2
  | .bcons kind s rest, h => by
    intro ub hb
    rcases List.mem_cons.mp hb with h1 | h1
    · subst h1
      exact goodS_rti s h.1
    · exact goodB_rti rest h.2 ub h1
  | .bnil, _ => by intro ub hb; simp [buildBranches] at hb
end

/-- **C1** amended: for every binding built from the library's combinators
whose object defaults each round-trip through their own field binding (and
whose declared field names are distinct, as TypeScript records guarantee),
every value producible by the binding's own decode is encoded without
throwing, and decoding that encoding gives the value back. -/
theorem c1_roundtrip_amended (s : Schema) (j : Json) (t : Value)
    (hgood : GoodS s) (h : (buildJB s).fromJson j = .ok t) :
    ∃ j2, (buildJB s).toJson t = .ok j2 ∧ (buildJB s).fromJson j2 = .ok t := by
  obtain ⟨⟨j2, htj, hfj, _⟩, _⟩ := goodS_rti s hgood j t h
  exact ⟨j2, htj, hfj⟩

/-- **C1** witness: the `object({title: string(), level:
withDefault(number(), 1)})` schema, whose decode of
`{"title":"engineer"}` round-trips. -/
theorem c1_roundtrip_amended_witness :
    ∃ j2,
      (buildJB (.sobject (.fcons "title" .sstring none
          (.fcons "level" .snumber (some (.vjson (.num 1))) .fnil)))).toJson
        (.vobj [("title", .vjson (.str "engineer")), ("level", .vjson (.num 1))])
        = .ok j2 ∧
      (buildJB (.sobject (.fcons "title" .sstring none
          (.fcons "level" .snumber (some (.vjson (.num 1))) .fnil)))).fromJson j2
        = .ok (.vobj [("title", .vjson (.str "engineer")), ("level", .vjson (.num 1))]) :=
  c1_roundtrip_amended _ (.obj [("title", .str "engineer")]) _
    (by
      simp only [GoodS, GoodF]
      refine ⟨⟨trivial, ?_, trivial, ?_, trivial⟩, ?_⟩
      · intro d hd; cases hd
      · intro d hd; cases hd; exact ⟨.num 1, rfl, rfl⟩
      · rw [show fieldNames (.fcons "title" .sstring none
          (.fcons "level" .snumber (some (.vjson (.num 1))) .fnil)) = ["title", "level"] from rfl]
        decide)
    (by rfl)

end TsJson
